import Mathlib

/-!
Verification of the lot-ledger core of `hledger_toolbox` (`utils.py` and the
split parser).  Shallow embedding conventions:

* Python `decimal.Decimal` values are modelled as exact rationals (`ℚ`);
  statements about totals being preserved are exact here, matching the spec's
  "up to rounding" caveats.
* `datetime` values are modelled as integral day numbers (`ℤ`); the source only
  ever compares dates, subtracts them (`date - lot.date >= timedelta(days=365)`)
  and formats them into account names, all of which survive this abstraction.
* The manager's `_lots` instance dictionary is an association list keyed by the
  string `f"{base_account}:{commodity}"`, exactly as in the source.
* The external `get_commodity_lots` fetch (an `hledger` subprocess call) is an
  environment parameter `env : String → String → List CommodityLot` carried by
  the manager; `_update_lots` consults it only on a cache miss, as in the source.
* Python exceptions are modelled with `Except String` results; functions that
  mutate the manager return the (possibly partially mutated) manager alongside
  the outcome, mirroring the fact that a raised exception does not roll back
  in-place mutations already performed.
* The `while` loop of the FIFO closing walk in `trade_lots` is modelled with an
  explicit fuel parameter (`fifoLoop`), because the source loop `continue`s
  without incrementing its index when it meets a zero-quantity lot and hence
  need not terminate; `none` means the loop is still running after `fuel` steps.
-/

namespace HledgerToolbox

/-- Price type of a lot price: per-unit (`@`) or total (`@@`), from `PriceType`. -/
inductive PriceType where
  | unit : PriceType
  | total : PriceType
deriving DecidableEq, Repr, Inhabited

/-- A price tag: its type together with the dollar value of its `Amount`
(`Price` in the source, with the `Amount.value` field as a rational). -/
structure Price where
  price_type : PriceType
  value : ℚ
deriving DecidableEq, Repr, Inhabited

/-- One acquisition lot (`CommodityLot` in the source): acquisition date as a
day number, signed quantity, and price.  The `commodity` string field of the
source dataclass is dropped: it always equals the key under which the lot is
stored and is only echoed into display strings. -/
structure CommodityLot where
  date : ℤ
  quantity : ℚ
  price : Price
deriving DecidableEq, Repr, Inhabited

/-- `CommodityLot.unit_price`: the per-unit cost of a lot; a `total`-typed
price is divided by the quantity (source `CommodityLot.unit_price`). -/
def CommodityLot.unit_price_value (lot : CommodityLot) : ℚ :=
  match lot.price.price_type with
  | PriceType.unit => lot.price.value
  | PriceType.total => lot.price.value / lot.quantity

/-- The manager's dictionary of lot lists, keyed by string as in
`self._lots: Dict[str, List[CommodityLot]]`. -/
abbrev LotsDict := List (String × List CommodityLot)

/-- Dictionary lookup (`key in d` / `d[key]`). -/
def dictFind (d : LotsDict) (k : String) : Option (List CommodityLot) :=
  match d with
  | [] => none
  | (k2, v) :: rest => if k2 = k then some v else dictFind rest k

/-- Dictionary write `d[key] = v`. -/
def dictSet (d : LotsDict) (k : String) (v : List CommodityLot) : LotsDict :=
  match d with
  | [] => [(k, v)]
  | (k2, v2) :: rest =>
      if k2 = k then (k2, v) :: rest else (k2, v2) :: dictSet rest k v

/-- The cache key `f"{base_account}:{commodity}"` used by every
`CommodityLotsManager` operation. -/
def lotsKey (base_account commodity : String) : String :=
  base_account ++ ":" ++ commodity

/-- `bisect.insort` on a date-sorted lot list (`CommodityLot.__lt__` compares
dates): the new lot is inserted before the first strictly later lot. -/
def insortRight (lot : CommodityLot) : List CommodityLot → List CommodityLot
  | [] => [lot]
  | l :: ls => if lot.date < l.date then lot :: l :: ls else l :: insortRight lot ls

/-- In-place mutation of the first lot carrying a given date (the lot that
`get_lot`'s `bisect_left`-plus-equality-check finds on the sorted list). -/
def updateLotAtDate (d : ℤ) (f : CommodityLot → CommodityLot) :
    List CommodityLot → List CommodityLot
  | [] => []
  | l :: ls => if l.date = d then f l :: ls else l :: updateLotAtDate d f ls

/-- `CommodityLotsManager`: the memoizing lot store.  `env` stands for the
external `get_commodity_lots` query consulted on a cache miss. -/
structure CommodityLotsManager where
  lots : LotsDict
  env : String → String → List CommodityLot

/-- `CommodityLotsManager._update_lots`: one-shot lazy load of a key. -/
def CommodityLotsManager.updateLots (m : CommodityLotsManager)
    (commodity base_account : String) : CommodityLotsManager :=
  match dictFind m.lots (lotsKey base_account commodity) with
  | some _ => m
  | none =>
      { m with
        lots := dictSet m.lots (lotsKey base_account commodity)
          (m.env base_account commodity) }

/-- `CommodityLotsManager.get_lots`: ensure the key is loaded, return the
cached list (and the possibly updated manager). -/
def CommodityLotsManager.get_lots (m : CommodityLotsManager)
    (commodity base_account : String) :
    CommodityLotsManager × List CommodityLot :=
  let m2 := m.updateLots commodity base_account
  (m2, (dictFind m2.lots (lotsKey base_account commodity)).getD [])

/-- `CommodityLotsManager.get_lot`: exact-date lookup.  The source does a
`bisect_left` on the date-sorted list followed by a date-equality check, which
returns the first lot whose date equals `lot_date`, i.e. a first-match scan. -/
def CommodityLotsManager.get_lot (m : CommodityLotsManager)
    (commodity base_account : String) (lot_date : ℤ) :
    CommodityLotsManager × Option CommodityLot :=
  let m2 := m.updateLots commodity base_account
  let lots := (dictFind m2.lots (lotsKey base_account commodity)).getD []
  (m2, lots.find? (fun l => l.date = lot_date))

/-- `CommodityLotsManager.add_lot`: ensure the key is loaded, then
`bisect.insort` the new lot. -/
def CommodityLotsManager.add_lot (m : CommodityLotsManager)
    (commodity base_account : String) (date : ℤ) (quantity : ℚ)
    (price : Price) : CommodityLotsManager :=
  let m2 := m.updateLots commodity base_account
  let key := lotsKey base_account commodity
  { m2 with
    lots := dictSet m2.lots key
      (insortRight ⟨date, quantity, price⟩ ((dictFind m2.lots key).getD [])) }

/-- Message of the `ValueError` raised by `sell_from_lot` on a missing lot
(the spec's `LotNotFound`). -/
def lotNotFoundMsg : String := "unable to find the specified lot"

/-- Message of the `ValueError` raised by `sell_from_lot` on an over-reduction
(the spec's `InsufficientLotQuantity`). -/
def notEnoughQuantityMsg : String := "not enough quantity in lot"

/-- `CommodityLotsManager.sell_from_lot`: look up the exact lot, fail if it is
absent or smaller in magnitude than the requested reduction, otherwise
subtract `quantity` from the lot in place. -/
def CommodityLotsManager.sell_from_lot (m : CommodityLotsManager)
    (commodity base_account : String) (date : ℤ) (quantity : ℚ) :
    Except String CommodityLotsManager :=
  let r := m.get_lot commodity base_account date
  let m2 := r.1
  match r.2 with
  | none => Except.error lotNotFoundMsg
  | some lot =>
      if |lot.quantity| < |quantity| then Except.error notEnoughQuantityMsg
      else
        let key := lotsKey base_account commodity
        Except.ok
          { m2 with
            lots := dictSet m2.lots key
              (updateLotAtDate date (fun l => { l with quantity := l.quantity - quantity })
                ((dictFind m2.lots key).getD [])) }

/-- The character translation of `_OptionsSymbolMapper.__getitem__`: digits are
shifted into `'a'..'j'`, `'.'` becomes `'_'`, everything else is unchanged. -/
def optionsSymbolMapChar (c : Char) : Char :=
  if '0' ≤ c ∧ c ≤ '9' then Char.ofNat (c.toNat - '0'.toNat + 'a'.toNat)
  else if c = '.' then '_' else c

/-- Python `str.strip(chars)`: drop characters of `chars` from both ends. -/
def pyStripChars (chars : List Char) (s : List Char) : List Char :=
  ((s.dropWhile (· ∈ chars)).reverse.dropWhile (· ∈ chars)).reverse

/-- The ASCII whitespace characters removed by Python `str.strip()`. -/
def pyWhitespace : List Char := [' ', '\t', '\n', '\x0b', '\x0c', '\r']

/-- `map_options_commodity_symbol`:
`with_numbers.strip().strip("-+").translate(_OptionsSymbolMapper.inst())`. -/
def map_options_commodity_symbol (s : String) : String :=
  String.mk ((pyStripChars ['-', '+'] (pyStripChars pyWhitespace s.data)).map
    optionsSymbolMapChar)

/-- Lower-casing of a commodity symbol, used when building lot sub-accounts
(`commodity.lower()` in the source). -/
def strLower (s : String) : String := String.mk (s.data.map Char.toLower)

/-- The lot sub-account string
`f"{base_account}:{commodity.lower()}:{lot_date:%Y%m%d}"`; dates being day
numbers here, the date renders as its decimal form. -/
def lotAccount (base_account commodity : String) (d : ℤ) : String :=
  base_account ++ ":" ++ strLower commodity ++ ":" ++ toString d

/-- A posting, keeping the fields the core computes with: account string, the
amount's commodity and rational value, and the optional price tag.  The
`formatter`/`spacing`/`tags` presentation fields of the source are dropped. -/
structure Posting where
  account : String
  amountCommodity : String
  value : ℚ
  price : Option Price
deriving DecidableEq, Repr, Inhabited

/-- A transaction: date, description, postings (presentation fields dropped). -/
structure Transaction where
  date : ℤ
  description : String
  postings : List Posting
deriving DecidableEq, Repr, Inhabited

/-- `TradeLotsAccounts` from the source. -/
structure TradeLotsAccounts where
  base_account : String
  short_term_account : String
  long_term_account : String
deriving DecidableEq, Repr

/-- Loop state of `_trade_to_close_postings`: the manager being mutated, the
postings accumulated in `res`, and the two gain/loss accumulators. -/
structure CloseState where
  mgr : CommodityLotsManager
  postings : List Posting
  long_term_gain_loss : ℚ
  short_term_gain_loss : ℚ

/-- Message of the `ValueError` raised by `_trade_to_close_postings` when a
consumed lot is smaller than the requested change. -/
def lotNotEnoughMsg : String := "lot does not have enough quantity"

/-- Message standing for the `AttributeError` hit when a `None` produced by
`get_lot` reaches the close loop (`lot.date` on `None`). -/
def noneLotMsg : String := "NoneType has no attribute date"

/-- The effective per-unit cost of a consumed lot:
`average_unit_cost if average_unit_cost is not None else lot.unit_price...`. -/
def lotCost (average_unit_cost : Option ℚ) (lot : CommodityLot) : ℚ :=
  match average_unit_cost with
  | some a => a
  | none => lot.unit_price_value

/-- One iteration's effect of the `_trade_to_close_postings` loop on its
accumulators, before the store mutation: bucket the realized gain/loss by
holding period and append the lot posting. -/
def closeStepState (accounts : TradeLotsAccounts) (date : ℤ) (commodity : String)
    (unit_price : ℚ) (average_unit_cost : Option ℚ) (change : ℚ)
    (lot : CommodityLot) (st : CloseState) : CloseState :=
  { st with
    long_term_gain_loss :=
      if 365 ≤ date - lot.date then
        st.long_term_gain_loss + change * (unit_price - lotCost average_unit_cost lot)
      else st.long_term_gain_loss
    short_term_gain_loss :=
      if 365 ≤ date - lot.date then st.short_term_gain_loss
      else st.short_term_gain_loss + change * (unit_price - lotCost average_unit_cost lot)
    postings := st.postings ++
      [⟨lotAccount accounts.base_account commodity lot.date,
        map_options_commodity_symbol commodity, change,
        some ⟨lot.price.price_type, lotCost average_unit_cost lot⟩⟩] }

/-- The `for change, lot in zip(change_in_quantity, lots)` loop of
`_trade_to_close_postings`.  Each pair carries the consumed change and the lot
object (`none` when the preceding `get_lot` returned `None`).  The source
mutates live lot objects; here the pair holds the lot's value at loop entry and
the store mutation goes through `sell_from_lot` by date, which coincides with
the source provided lot dates are distinct (the store invariant).  On error the
state accumulated so far is returned alongside the message, mirroring the fact
that a raise does not undo earlier in-place mutations. -/
def closeLoop (accounts : TradeLotsAccounts) (date : ℤ) (commodity : String)
    (unit_price : ℚ) (average_unit_cost : Option ℚ) :
    List (ℚ × Option CommodityLot) → CloseState → CloseState × Option String
  | [], st => (st, none)
  | (_, none) :: _, st => (st, some noneLotMsg)
  | (change, some lot) :: rest, st =>
      if |lot.quantity| < |change| then (st, some lotNotEnoughMsg)
      else
        let st2 :=
          closeStepState accounts date commodity unit_price average_unit_cost
            change lot st
        match st2.mgr.sell_from_lot commodity accounts.base_account lot.date (-change) with
        | Except.error e => (st2, some e)
        | Except.ok mgr2 =>
            closeLoop accounts date commodity unit_price average_unit_cost rest
              { st2 with mgr := mgr2 }

/-- `_trade_to_close_postings`: run the close loop from empty accumulators and
append the non-zero gain/loss postings.  The final manager is returned even on
error (partial mutation persists across a raise). -/
def trade_to_close_postings (accounts : TradeLotsAccounts) (date : ℤ)
    (commodity : String) (unit_price : ℚ) (average_unit_cost : Option ℚ)
    (pairs : List (ℚ × Option CommodityLot)) (m : CommodityLotsManager) :
    CommodityLotsManager × Except String (List Posting) :=
  match closeLoop accounts date commodity unit_price average_unit_cost pairs
      ⟨m, [], 0, 0⟩ with
  | (st, some e) => (st.mgr, Except.error e)
  | (st, none) =>
      (st.mgr, Except.ok
        (st.postings ++
          (if st.long_term_gain_loss ≠ 0 then
            [⟨accounts.long_term_account, "$", st.long_term_gain_loss, none⟩]
          else []) ++
          (if st.short_term_gain_loss ≠ 0 then
            [⟨accounts.short_term_account, "$", st.short_term_gain_loss, none⟩]
          else [])))

/-- State of the FIFO closing walk of `trade_lots`: loop index `i`, the
remaining requested change `remainder`, and the zipped
`used_changes`/`used_lots` accumulators. -/
structure FifoState where
  i : ℕ
  remainder : ℚ
  used : List (ℚ × CommodityLot)

/-- The `while remainder * change_in_quantity > 0 and i < len(lots)` loop of
`trade_lots`, with explicit fuel.  A zero-quantity lot triggers the source's
`continue`, which re-enters the loop with an unchanged state (the index is not
incremented); `none` means the loop has not finished within `fuel` steps. -/
def fifoLoop (lots : List CommodityLot) (delta : ℚ) :
    ℕ → FifoState → Option FifoState
  | 0, _ => none
  | fuel + 1, st =>
      if st.remainder * delta > 0 ∧ st.i < lots.length then
        match lots[st.i]? with
        | none => none
        | some lot =>
            if lot.quantity = 0 then fifoLoop lots delta fuel st
            else
              fifoLoop lots delta fuel
                { i := st.i + 1
                  remainder := st.remainder + lot.quantity
                  used := st.used ++
                    [(if |st.remainder| > |lot.quantity| then -lot.quantity
                      else st.remainder, lot)] }
      else some st

/-- The `if not lots or lots[0].quantity * change_in_quantity >= 0` test
deciding that an aggregate-delta trade opens a new lot. -/
def openingCondition (lots : List CommodityLot) (delta : ℚ) : Bool :=
  match lots with
  | [] => true
  | l0 :: _ => decide (0 ≤ l0.quantity * delta)

/-- The average unit cost computed by `trade_lots` in average-cost mode:
`sum(lot.quantity * lot.price.amount.value / total_quantity for lot in lots)`
with `total_quantity = sum(lot.quantity for lot in lots)`. -/
def averageUnitCost (lots : List CommodityLot) : ℚ :=
  let total_quantity := (lots.map (fun l => l.quantity)).sum
  (lots.map (fun l => l.quantity * l.price.value / total_quantity)).sum

/-- The `change_in_quantity` argument of `trade_lots`: either one aggregate
signed number or a list of `(delta, lot_date)` pairs naming specific lots. -/
inductive ChangeInQuantity where
  | aggregate : ℚ → ChangeInQuantity
  | specific : List (ℚ × ℤ) → ChangeInQuantity

/-- `trade_lots`.  Returns `none` when the FIFO walk exceeds `fuel` (modelling
the source loop running forever), otherwise the possibly mutated manager and
either the raised error message or the built transaction. -/
def trade_lots (fuel : ℕ) (m : CommodityLotsManager)
    (accounts : TradeLotsAccounts) (date : ℤ) (commodity : String)
    (change_in_quantity : ChangeInQuantity) (proceeds_or_costs : ℚ)
    (use_average_cost : Bool) :
    Option (CommodityLotsManager × Except String Transaction) :=
  let cashPosting : Posting :=
    ⟨accounts.base_account ++ ":cash", "$", proceeds_or_costs, none⟩
  match change_in_quantity with
  | ChangeInQuantity.aggregate delta =>
      let r := m.get_lots commodity accounts.base_account
      let m2 := r.1
      let lots := r.2
      let unit_price := |proceeds_or_costs / delta|
      if openingCondition lots delta then
        let price : Price := ⟨PriceType.unit, unit_price⟩
        let openPosting : Posting :=
          ⟨lotAccount accounts.base_account commodity date,
            map_options_commodity_symbol commodity, delta, some price⟩
        let m3 := m2.add_lot commodity accounts.base_account date delta price
        some (m3, Except.ok ⟨date, "", [cashPosting, openPosting]⟩)
      else
        match fifoLoop lots delta fuel ⟨0, delta, []⟩ with
        | none => none
        | some st =>
            let average_unit_cost :=
              if use_average_cost then some (averageUnitCost lots) else none
            let pairs := st.used.map (fun p => (p.1, some p.2))
            match trade_to_close_postings accounts date commodity unit_price
                average_unit_cost pairs m2 with
            | (m3, Except.error e) => some (m3, Except.error e)
            | (m3, Except.ok ps) =>
                some (m3, Except.ok ⟨date, "", cashPosting :: ps⟩)
  | ChangeInQuantity.specific pairsIn =>
      let total_quantity := (pairsIn.map (fun p => p.1)).sum
      let unit_price := |proceeds_or_costs / total_quantity|
      let fetch := pairsIn.foldl
        (fun (acc : CommodityLotsManager × List (ℚ × Option CommodityLot)) p =>
          let r := acc.1.get_lot commodity accounts.base_account p.2
          (r.1, acc.2 ++ [(p.1, r.2)]))
        (m, [])
      match trade_to_close_postings accounts date commodity unit_price none
          fetch.2 fetch.1 with
      | (m3, Except.error e) => some (m3, Except.error e)
      | (m3, Except.ok ps) =>
          some (m3, Except.ok ⟨date, "", cashPosting :: ps⟩)

/-- `CommoditySplitAction` from the source. -/
structure CommoditySplitAction where
  date : ℤ
  commodity : String
  quantity : ℚ
  is_reverse : Bool
deriving DecidableEq, Repr

/-- The split parser's cache `self._cache`: per commodity, the captured lot
snapshot and the optional sell/buy leg quantities. -/
abbrev SplitCache := List (String × (List CommodityLot × Option ℚ × Option ℚ))

/-- Split cache lookup. -/
def splitCacheFind (c : SplitCache) (k : String) :
    Option (List CommodityLot × Option ℚ × Option ℚ) :=
  match c with
  | [] => none
  | (k2, v) :: rest => if k2 = k then some v else splitCacheFind rest k

/-- Split cache write. -/
def splitCacheSet (c : SplitCache) (k : String)
    (v : List CommodityLot × Option ℚ × Option ℚ) : SplitCache :=
  match c with
  | [] => [(k, v)]
  | (k2, v2) :: rest =>
      if k2 = k then (k2, v) :: rest else (k2, v2) :: splitCacheSet rest k v

/-- Message standing for the `TypeError` hit by `SplitParser.__call__` when it
computes `-sell_quantity / buy_quantity` with a leg still missing. -/
def missingLegMsg : String := "missing split leg"

/-- `SplitParser.__call__`.  The first leg for a commodity snapshots the
current lot list into the cache and returns no transaction; the second leg
computes `ratio = -sell_quantity / buy_quantity` and emits, per snapshotted
lot, a draw-down posting at the old quantity and price and a re-establishment
posting at quantity `/ ratio` and price value `* ratio`.  The transaction
returned here is the one built before the external `balance_transaction`
subprocess check, which can only append a plug posting.  Note the second leg
never touches the lots manager: the returned manager is the argument itself. -/
def splitParserCall (cache : SplitCache) (m : CommodityLotsManager)
    (record : CommoditySplitAction) (base_account : String) :
    Except String (SplitCache × CommodityLotsManager × Option Transaction) :=
  match splitCacheFind cache record.commodity with
  | some (lots, sq, bq) =>
      let total_quantity := (lots.map (fun l => l.quantity)).sum
      let entry : List CommodityLot × Option ℚ × Option ℚ :=
        if record.quantity * total_quantity ≤ 0 then (lots, some record.quantity, bq)
        else (lots, sq, some record.quantity)
      let cache2 := splitCacheSet cache record.commodity entry
      let desc :=
        if record.is_reverse then "Reverse split " ++ record.commodity
        else "Split " ++ record.commodity
      match entry.2.1, entry.2.2 with
      | some sell_quantity, some buy_quantity =>
          let ratio := -sell_quantity / buy_quantity
          let postings :=
            (lots.map (fun lot =>
              [(⟨lotAccount base_account record.commodity lot.date,
                  record.commodity, -lot.quantity, some lot.price⟩ : Posting),
                ⟨lotAccount base_account record.commodity lot.date,
                  record.commodity, lot.quantity / ratio,
                  some ⟨lot.price.price_type, lot.price.value * ratio⟩⟩])).flatten
          Except.ok (cache2, m, some ⟨record.date, desc, postings⟩)
      | _, _ => Except.error missingLegMsg
  | none =>
      let r := m.get_lots record.commodity base_account
      let lots := r.2
      let total_quantity := (lots.map (fun l => l.quantity)).sum
      let entry : List CommodityLot × Option ℚ × Option ℚ :=
        if record.quantity * total_quantity ≤ 0 then (lots, some record.quantity, none)
        else (lots, none, some record.quantity)
      Except.ok (splitCacheSet cache record.commodity entry, r.1, none)

/-- Modelled from the spec's words, for comparison with the code's
`openingCondition`: "the first lot's quantity and `delta` have the same sign"
read strictly, zero having no sign. -/
def specSameSign (a b : ℚ) : Prop := (0 < a ∧ 0 < b) ∨ (a < 0 ∧ b < 0)

instance (a b : ℚ) : Decidable (specSameSign a b) := by
  unfold specSameSign; infer_instance

/-- Modelled from the spec's words, for comparison with the store contents
after a split: every lot rescaled to quantity `old / ratio` and unit cost
`old × ratio`. -/
def specRescaledLots (ratio : ℚ) (lots : List CommodityLot) : List CommodityLot :=
  lots.map (fun l => ⟨l.date, l.quantity / ratio, ⟨l.price.price_type, l.price.value * ratio⟩⟩)

/-! ## Helper lemmas -/

theorem dictFind_dictSet_self (d : LotsDict) (k : String) (v : List CommodityLot) :
    dictFind (dictSet d k v) k = some v := by
  induction d with
  | nil => simp [dictSet, dictFind]
  | cons hd tl ih =>
      obtain ⟨k2, v2⟩ := hd
      by_cases h : k2 = k
      · simp [dictSet, dictFind, h]
      · simp [dictSet, dictFind, h, ih]

theorem updateLots_cached (m : CommodityLotsManager) (commodity base_account : String)
    (ls : List CommodityLot)
    (h : dictFind m.lots (lotsKey base_account commodity) = some ls) :
    m.updateLots commodity base_account = m := by
  unfold CommodityLotsManager.updateLots
  rw [h]

theorem insortRight_find_fresh (d : ℤ) (q : ℚ) (pr : Price) (ls : List CommodityLot)
    (hd : ∀ l ∈ ls, l.date ≠ d) :
    (insortRight ⟨d, q, pr⟩ ls).find? (fun l => l.date = d) = some ⟨d, q, pr⟩ := by
  induction ls with
  | nil => simp [insortRight, List.find?]
  | cons l ls ih =>
      by_cases hlt : d < l.date
      · simp [insortRight, hlt, List.find?]
      · have hne : l.date ≠ d := hd l (List.mem_cons_self l ls)
        simp only [insortRight, if_neg hlt]
        rw [List.find?_cons_of_neg _ (by simpa using hne)]
        exact ih (fun x hx => hd x (List.mem_cons_of_mem l hx))

/-! ## C6 — `sell_from_lot` behaviour -/

/-- Shared empty lot source for concrete scenarios; never consulted when the
relevant key is already cached. -/
def emptyEnv : String → String → List CommodityLot := fun _ _ => []

/-- C6: on a cached key, `sell_from_lot` at an exact date fails with the
lot-not-found error when no lot carries that date, fails with the
insufficient-quantity error when `|quantity_delta| > |lot.quantity|`, and
otherwise subtracts `quantity_delta` from that lot's quantity in place. -/
theorem sell_from_lot_trichotomy (m : CommodityLotsManager)
    (commodity base_account : String) (ls : List CommodityLot) (d : ℤ) (q : ℚ)
    (hc : dictFind m.lots (lotsKey base_account commodity) = some ls) :
    (ls.find? (fun l => l.date = d) = none →
      m.sell_from_lot commodity base_account d q = Except.error lotNotFoundMsg) ∧
    (∀ lot, ls.find? (fun l => l.date = d) = some lot → |lot.quantity| < |q| →
      m.sell_from_lot commodity base_account d q = Except.error notEnoughQuantityMsg) ∧
    (∀ lot, ls.find? (fun l => l.date = d) = some lot → ¬|lot.quantity| < |q| →
      m.sell_from_lot commodity base_account d q =
        Except.ok
          { m with
            lots := dictSet m.lots (lotsKey base_account commodity)
              (updateLotAtDate d (fun l => { l with quantity := l.quantity - q }) ls) }) := by
  have hup := updateLots_cached m commodity base_account ls hc
  refine ⟨?_, ?_, ?_⟩
  · intro hfind
    unfold CommodityLotsManager.sell_from_lot CommodityLotsManager.get_lot
    rw [hup]
    simp [hc, hfind]
  · intro lot hfind hlt
    unfold CommodityLotsManager.sell_from_lot CommodityLotsManager.get_lot
    rw [hup]
    simp [hc, hfind, hlt]
  · intro lot hfind hge
    unfold CommodityLotsManager.sell_from_lot CommodityLotsManager.get_lot
    rw [hup]
    simp [hc, hfind, hge]

/-- Concrete manager for the C6 witness: one cached lot of quantity 5. -/
def mgrC6 : CommodityLotsManager :=
  ⟨[("acct:AAA", [⟨0, 5, ⟨PriceType.unit, 1⟩⟩])], emptyEnv⟩

/-- C6 witness: reducing 8 from the lot of quantity 5 at its exact date fails
with the insufficient-quantity error (the spec's own example). -/
theorem sell_from_lot_trichotomy_witness :
    mgrC6.sell_from_lot "AAA" "acct" 0 8 = Except.error notEnoughQuantityMsg := by
  have h := sell_from_lot_trichotomy mgrC6 "AAA" "acct"
    [⟨0, 5, ⟨PriceType.unit, 1⟩⟩] 0 8 (by decide)
  exact h.2.1 ⟨0, 5, ⟨PriceType.unit, 1⟩⟩ (by decide) (by norm_num)

/-! ### `closeLoop` unfolding lemmas -/

theorem closeLoop_cons_none (accounts : TradeLotsAccounts) (date : ℤ)
    (commodity : String) (u : ℚ) (avg : Option ℚ) (c : ℚ)
    (rest : List (ℚ × Option CommodityLot)) (st : CloseState) :
    closeLoop accounts date commodity u avg ((c, none) :: rest) st =
      (st, some noneLotMsg) := rfl

theorem closeLoop_cons_insufficient (accounts : TradeLotsAccounts) (date : ℤ)
    (commodity : String) (u : ℚ) (avg : Option ℚ) (c : ℚ) (lot : CommodityLot)
    (rest : List (ℚ × Option CommodityLot)) (st : CloseState)
    (hq : |lot.quantity| < |c|) :
    closeLoop accounts date commodity u avg ((c, some lot) :: rest) st =
      (st, some lotNotEnoughMsg) := by
  unfold closeLoop
  rw [if_pos hq]

theorem closeLoop_cons_error (accounts : TradeLotsAccounts) (date : ℤ)
    (commodity : String) (u : ℚ) (avg : Option ℚ) (c : ℚ) (lot : CommodityLot)
    (rest : List (ℚ × Option CommodityLot)) (st : CloseState) (e : String)
    (hq : ¬|lot.quantity| < |c|)
    (hs : (closeStepState accounts date commodity u avg c lot st).mgr.sell_from_lot
        commodity accounts.base_account lot.date (-c) = Except.error e) :
    closeLoop accounts date commodity u avg ((c, some lot) :: rest) st =
      (closeStepState accounts date commodity u avg c lot st, some e) := by
  unfold closeLoop
  rw [if_neg hq]
  dsimp only
  rw [hs]

theorem closeLoop_cons_ok (accounts : TradeLotsAccounts) (date : ℤ)
    (commodity : String) (u : ℚ) (avg : Option ℚ) (c : ℚ) (lot : CommodityLot)
    (rest : List (ℚ × Option CommodityLot)) (st : CloseState)
    (mgr2 : CommodityLotsManager)
    (hq : ¬|lot.quantity| < |c|)
    (hs : (closeStepState accounts date commodity u avg c lot st).mgr.sell_from_lot
        commodity accounts.base_account lot.date (-c) = Except.ok mgr2) :
    closeLoop accounts date commodity u avg ((c, some lot) :: rest) st =
      closeLoop accounts date commodity u avg rest
        { closeStepState accounts date commodity u avg c lot st with mgr := mgr2 } := by
  conv_lhs => simp only [closeLoop]
  rw [if_neg hq]
  dsimp only
  rw [hs]

/-! ## C7 — holding-period bucketing -/

/-- C7: when the close loop consumes a lot, the realized gain/loss
`change * (unit_price - cost)` is added to the long-term accumulator exactly
when `trade_date - lot.date ≥ 365` days, and to the short-term accumulator
otherwise (so exactly 365 days is long-term and 364 is short-term). -/
theorem holding_period_bucketing (accounts : TradeLotsAccounts) (date : ℤ)
    (commodity : String) (u : ℚ) (avg : Option ℚ) (c : ℚ) (lot : CommodityLot)
    (st : CloseState) (m2 : CommodityLotsManager)
    (hq : ¬|lot.quantity| < |c|)
    (hsell : st.mgr.sell_from_lot commodity accounts.base_account lot.date (-c) =
      Except.ok m2) :
    (closeLoop accounts date commodity u avg [(c, some lot)] st).2 = none ∧
    (365 ≤ date - lot.date →
      (closeLoop accounts date commodity u avg [(c, some lot)] st).1.long_term_gain_loss =
        st.long_term_gain_loss + c * (u - avg.getD lot.unit_price_value) ∧
      (closeLoop accounts date commodity u avg [(c, some lot)] st).1.short_term_gain_loss =
        st.short_term_gain_loss) ∧
    (date - lot.date < 365 →
      (closeLoop accounts date commodity u avg [(c, some lot)] st).1.short_term_gain_loss =
        st.short_term_gain_loss + c * (u - avg.getD lot.unit_price_value) ∧
      (closeLoop accounts date commodity u avg [(c, some lot)] st).1.long_term_gain_loss =
        st.long_term_gain_loss) := by
  have hcost : lotCost avg lot = avg.getD lot.unit_price_value := by
    cases avg <;> rfl
  rw [closeLoop_cons_ok accounts date commodity u avg c lot [] st m2 hq hsell]
  by_cases hlt : 365 ≤ date - lot.date
  · refine ⟨rfl, fun _ => ⟨?_, ?_⟩, fun h => absurd hlt (by omega)⟩ <;>
      simp [closeLoop, closeStepState, if_pos hlt, hcost]
  · refine ⟨rfl, fun h => absurd h hlt, fun _ => ⟨?_, ?_⟩⟩ <;>
      simp [closeLoop, closeStepState, if_neg hlt, hcost]

/-- Concrete setup for the C7 witness: a lot acquired on day 0, closed on day
365 (exactly 365 days later), landing in the long-term bucket. -/
def mgrC7 : CommodityLotsManager :=
  ⟨[("acct:AAA", [⟨0, 5, ⟨PriceType.unit, 10⟩⟩])], emptyEnv⟩

/-- Loop state for the C7 witness. -/
def stC7 : CloseState := ⟨mgrC7, [], 0, 0⟩

/-- C7 witness: closing -5 of the day-0 lot on day 365 at unit price 12 books
the whole gain `-5 * (12 - 10) = -10` long-term and nothing short-term. -/
theorem holding_period_bucketing_witness :
    (closeLoop ⟨"acct", "st", "lt"⟩ 365 "AAA" 12 none
      [(-5, some ⟨0, 5, ⟨PriceType.unit, 10⟩⟩)] stC7).1.long_term_gain_loss = -10 ∧
    (closeLoop ⟨"acct", "st", "lt"⟩ 365 "AAA" 12 none
      [(-5, some ⟨0, 5, ⟨PriceType.unit, 10⟩⟩)] stC7).1.short_term_gain_loss = 0 := by
  have hsell : stC7.mgr.sell_from_lot "AAA" "acct" 0 (- -5 : ℚ) =
      Except.ok ⟨[("acct:AAA", [⟨0, 0, ⟨PriceType.unit, 10⟩⟩])], emptyEnv⟩ := by
    simp [stC7, mgrC7, CommodityLotsManager.sell_from_lot, CommodityLotsManager.get_lot,
      CommodityLotsManager.updateLots, dictFind, dictSet, lotsKey, updateLotAtDate,
      List.find?, emptyEnv]
  have h := holding_period_bucketing ⟨"acct", "st", "lt"⟩ 365 "AAA" 12 none (-5)
    ⟨0, 5, ⟨PriceType.unit, 10⟩⟩ stC7
    ⟨[("acct:AAA", [⟨0, 0, ⟨PriceType.unit, 10⟩⟩])], emptyEnv⟩
    (by norm_num) hsell
  obtain ⟨hlt, hst⟩ := h.2.1 (by norm_num)
  refine ⟨?_, ?_⟩
  · rw [hlt]; norm_num [stC7, CommodityLot.unit_price_value]
  · rw [hst]; rfl

/-! ## C9 — the options-symbol character substitution -/

/-- The character alphabet of plain commodity symbols: uppercase letters,
digits, and the dot of class-share tickers. -/
def symbolChars : List Char :=
  ['A', 'B', 'C', 'D', 'E', 'F', 'G', 'H', 'I', 'J', 'K', 'L', 'M', 'N', 'O',
   'P', 'Q', 'R', 'S', 'T', 'U', 'V', 'W', 'X', 'Y', 'Z',
   '0', '1', '2', '3', '4', '5', '6', '7', '8', '9', '.']

theorem optionsSymbolMapChar_inj_on :
    ∀ c1 ∈ symbolChars, ∀ c2 ∈ symbolChars,
      optionsSymbolMapChar c1 = optionsSymbolMapChar c2 → c1 = c2 := by decide

theorem symbolChars_not_stripped :
    ∀ c ∈ symbolChars, c ∉ pyWhitespace ∧ c ∉ ['-', '+'] := by decide

theorem dropWhile_of_forall_not {p : Char → Bool} (l : List Char)
    (h : ∀ c ∈ l, ¬p c) : l.dropWhile p = l := by
  cases l with
  | nil => rfl
  | cons c l =>
      rw [List.dropWhile_cons_of_neg (by simpa using h c (List.mem_cons_self c l))]

theorem pyStripChars_of_forall_not (chars : List Char) (l : List Char)
    (h : ∀ c ∈ l, c ∉ chars) : pyStripChars chars l = l := by
  unfold pyStripChars
  rw [dropWhile_of_forall_not l (by simpa using h)]
  rw [dropWhile_of_forall_not l.reverse (by simp only [List.mem_reverse]; simpa using h)]
  simp

theorem map_optionsSymbolMapChar_inj_on (xs ys : List Char)
    (hx : ∀ c ∈ xs, c ∈ symbolChars) (hy : ∀ c ∈ ys, c ∈ symbolChars)
    (h : xs.map optionsSymbolMapChar = ys.map optionsSymbolMapChar) : xs = ys := by
  induction xs generalizing ys with
  | nil => cases ys with
      | nil => rfl
      | cons y ys => simp at h
  | cons x xs ih =>
      cases ys with
      | nil => simp at h
      | cons y ys =>
          simp only [List.map_cons, List.cons.injEq] at h
          have hxy : x = y :=
            optionsSymbolMapChar_inj_on x (hx x (List.mem_cons_self x xs))
              y (hy y (List.mem_cons_self y ys)) h.1
          have htl : xs = ys :=
            ih ys (fun c hc => hx c (List.mem_cons_of_mem x hc))
              (fun c hc => hy c (List.mem_cons_of_mem y hc)) h.2
          rw [hxy, htl]

/-- C9 counterexample: the substitution is not injective on strings — the
distinct inputs `"0"` and `"a"` both map to `"a"` (digits are shifted into
`'a'..'j'`, which collide with those very letters when they occur in an
input symbol). -/
theorem map_options_commodity_symbol_not_injective :
    map_options_commodity_symbol "0" = map_options_commodity_symbol "a" ∧
    ("0" : String) ≠ "a" := by decide

/-- C9 amended: on commodity symbols drawn from uppercase letters, digits and
`'.'` — the alphabet actual ticker and option symbols use — the mapping is
injective, hence lossless and reproducible for round-trip lookups. -/
theorem map_options_commodity_symbol_inj_on_symbols (s t : String)
    (hs : ∀ c ∈ s.data, c ∈ symbolChars) (ht : ∀ c ∈ t.data, c ∈ symbolChars)
    (h : map_options_commodity_symbol s = map_options_commodity_symbol t) :
    s = t := by
  unfold map_options_commodity_symbol at h
  rw [pyStripChars_of_forall_not pyWhitespace s.data
      (fun c hc => (symbolChars_not_stripped c (hs c hc)).1),
    pyStripChars_of_forall_not pyWhitespace t.data
      (fun c hc => (symbolChars_not_stripped c (ht c hc)).1),
    pyStripChars_of_forall_not ['-', '+'] s.data
      (fun c hc => (symbolChars_not_stripped c (hs c hc)).2),
    pyStripChars_of_forall_not ['-', '+'] t.data
      (fun c hc => (symbolChars_not_stripped c (ht c hc)).2)] at h
  have hdata : s.data = t.data :=
    map_optionsSymbolMapChar_inj_on s.data t.data hs ht (by
      have := congrArg String.data h
      simpa using this)
  cases s
  cases t
  exact congrArg String.mk (by simpa using hdata)

/-- C9 witness for the amended theorem, at the class-share symbol `"BRK.B"`. -/
theorem map_options_commodity_symbol_inj_on_symbols_witness :
    ("BRK.B" : String) = "BRK.B" :=
  map_options_commodity_symbol_inj_on_symbols "BRK.B" "BRK.B"
    (by decide) (by decide) rfl

/-! ## C2 — split rescale -/

/-- The lot store contents, for a key, inside a split-parser result. -/
def splitResultStore
    (r : Except String (SplitCache × CommodityLotsManager × Option Transaction))
    (key : String) : Option (List CommodityLot) :=
  match r with
  | Except.ok (_, m, _) => dictFind m.lots key
  | Except.error _ => none

/-- Concrete manager for the C2 scenarios: one lot of 100 units at unit cost
10 (total cost 1000), the spec's own split example. -/
def mgrC2 : CommodityLotsManager :=
  ⟨[("acct:AAA", [⟨0, 100, ⟨PriceType.unit, 10⟩⟩])], emptyEnv⟩

/-- Split cache after the sell leg of the 2-for-1 split (−100) was seen. -/
def cacheC2 : SplitCache := [("AAA", ([⟨0, 100, ⟨PriceType.unit, 10⟩⟩], some (-100), none))]

/-- C2 counterexample: after the second (buy, +200) leg of the 2-for-1 split,
with `ratio = -(-100)/200 = 1/2`, the lot store still holds the original lot
`(quantity 100, unit cost 10)` and not the rescaled lot `(200, 5)` the claim
requires: `SplitParser.__call__` only emits postings and never mutates the
managed lots, so a later trade would consume the unscaled lot. -/
theorem split_second_leg_leaves_store_unscaled :
    splitResultStore (splitParserCall cacheC2 mgrC2 ⟨5, "AAA", 200, false⟩ "acct")
        "acct:AAA" = some [⟨0, 100, ⟨PriceType.unit, 10⟩⟩] ∧
    specRescaledLots (1/2 : ℚ) [⟨0, 100, ⟨PriceType.unit, 10⟩⟩] =
      [⟨0, 200, ⟨PriceType.unit, 5⟩⟩] ∧
    ([⟨0, 100, ⟨PriceType.unit, 10⟩⟩] : List CommodityLot) ≠
      [⟨0, 200, ⟨PriceType.unit, 5⟩⟩] := by
  refine ⟨?_, ?_, ?_⟩
  · norm_num [splitParserCall, splitResultStore, cacheC2, mgrC2, splitCacheFind,
      splitCacheSet, dictFind]
  · simp [specRescaledLots]
    norm_num
  · simp

/-- C2 amended: when the second leg of a split arrives — in either arrival
order: buy leg completing a cached sell leg, or sell leg completing a cached
buy leg — the parser returns a transaction whose postings draw every
snapshotted lot down in full at its old quantity and price and re-establish
it at quantity `old / ratio` with price value `old × ratio`
(`ratio = -sell_qty / buy_qty`), and the product quantity × price value — the
total cost, for unit-priced lots — is preserved exactly; the lot store itself
is left untouched (its lots keep their old quantity and unit cost), so the
rescale is visible only in the emitted transaction, not to later trades
reading the cached lots. -/
theorem split_second_leg_postings_rescale (cache : SplitCache)
    (m : CommodityLotsManager) (record : CommoditySplitAction)
    (base_account : String) (lots : List CommodityLot) (s b : ℚ)
    (hq : record.quantity ≠ 0) :
    (splitCacheFind cache record.commodity = some (lots, some s, none) →
      record.quantity * (lots.map (fun l => l.quantity)).sum > 0 →
      splitParserCall cache m record base_account =
        Except.ok
          (splitCacheSet cache record.commodity (lots, some s, some record.quantity),
            m,
            some
              ⟨record.date,
                (if record.is_reverse then "Reverse split " else "Split ") ++
                  record.commodity,
                (lots.map (fun lot =>
                  [(⟨lotAccount base_account record.commodity lot.date,
                      record.commodity, -lot.quantity, some lot.price⟩ : Posting),
                    ⟨lotAccount base_account record.commodity lot.date,
                      record.commodity, lot.quantity / (-s / record.quantity),
                      some ⟨lot.price.price_type,
                        lot.price.value * (-s / record.quantity)⟩⟩])).flatten⟩) ∧
      (s ≠ 0 →
        ∀ lot ∈ lots,
          (lot.quantity / (-s / record.quantity)) *
              (lot.price.value * (-s / record.quantity)) =
            lot.quantity * lot.price.value)) ∧
    (splitCacheFind cache record.commodity = some (lots, none, some b) →
      record.quantity * (lots.map (fun l => l.quantity)).sum ≤ 0 →
      splitParserCall cache m record base_account =
        Except.ok
          (splitCacheSet cache record.commodity (lots, some record.quantity, some b),
            m,
            some
              ⟨record.date,
                (if record.is_reverse then "Reverse split " else "Split ") ++
                  record.commodity,
                (lots.map (fun lot =>
                  [(⟨lotAccount base_account record.commodity lot.date,
                      record.commodity, -lot.quantity, some lot.price⟩ : Posting),
                    ⟨lotAccount base_account record.commodity lot.date,
                      record.commodity, lot.quantity / (-record.quantity / b),
                      some ⟨lot.price.price_type,
                        lot.price.value * (-record.quantity / b)⟩⟩])).flatten⟩) ∧
      (b ≠ 0 →
        ∀ lot ∈ lots,
          (lot.quantity / (-record.quantity / b)) *
              (lot.price.value * (-record.quantity / b)) =
            lot.quantity * lot.price.value)) := by
  constructor
  · intro hc hbuy
    constructor
    · have hcond : ¬(record.quantity * (lots.map (fun l => l.quantity)).sum ≤ 0) :=
        not_le.mpr hbuy
      unfold splitParserCall
      rw [hc]
      simp only [if_neg hcond]
      cases hrev : record.is_reverse <;> simp [hrev]
    · intro hs lot _
      have hratio : -s / record.quantity ≠ 0 := by
        simp [div_eq_zero_iff, hs, hq]
      field_simp
      ring
  · intro hc hsell
    constructor
    · unfold splitParserCall
      rw [hc]
      simp only [if_pos hsell]
      cases hrev : record.is_reverse <;> simp [hrev]
    · intro hb lot _
      have hratio : -record.quantity / b ≠ 0 := by
        simp [div_eq_zero_iff, hq, hb]
      field_simp
      ring

/-- Split cache for the buy-leg-first arrival order: the buy leg (+100) of a
1-for-2 reverse split of a 200-unit lot is already cached. -/
def cacheC2b : SplitCache :=
  [("AAA", ([⟨0, 200, ⟨PriceType.unit, 5⟩⟩], none, some 100))]

/-- C2 witness for the amended theorem, covering both arrival orders: the
2-for-1 split delivered sell-leg first (`ratio = 1/2`, total cost `100 × 10`
preserved) and a 1-for-2 reverse split delivered buy-leg first (`ratio = 2`,
total cost `200 × 5` preserved). -/
theorem split_second_leg_postings_rescale_witness :
    ((100 : ℚ) / (-(-100) / 200)) * ((10 : ℚ) * (-(-100) / 200)) = 100 * 10 ∧
    ((200 : ℚ) / (-(-200) / 100)) * ((5 : ℚ) * (-(-200) / 100)) = 200 * 5 := by
  have hA := split_second_leg_postings_rescale cacheC2 mgrC2 ⟨5, "AAA", 200, false⟩
    "acct" [⟨0, 100, ⟨PriceType.unit, 10⟩⟩] (-100) 0 (by norm_num)
  have hB := split_second_leg_postings_rescale cacheC2b mgrC2 ⟨5, "AAA", -200, true⟩
    "acct" [⟨0, 200, ⟨PriceType.unit, 5⟩⟩] 0 100 (by norm_num)
  refine ⟨?_, ?_⟩
  · exact (hA.1 (by decide) (by norm_num)).2 (by norm_num)
      ⟨0, 100, ⟨PriceType.unit, 10⟩⟩ (by simp)
  · exact (hB.2 (by decide) (by norm_num)).2 (by norm_num)
      ⟨0, 200, ⟨PriceType.unit, 5⟩⟩ (by simp)

/-! ## Observers on `trade_lots` results -/

/-- The transaction-or-error part of a `trade_lots` result. -/
def tradeOutcome (r : Option (CommodityLotsManager × Except String Transaction)) :
    Option (Except String Transaction) :=
  match r with
  | some (_, out) => some out
  | none => none

/-- The lot store at a key inside a `trade_lots` result. -/
def tradeStoreAt (r : Option (CommodityLotsManager × Except String Transaction))
    (key : String) : Option (List CommodityLot) :=
  match r with
  | some (m, _) => dictFind m.lots key
  | none => none

/-! ## More store helper lemmas -/

theorem updateLotAtDate_length (d : ℤ) (f : CommodityLot → CommodityLot) :
    ∀ l : List CommodityLot, (updateLotAtDate d f l).length = l.length := by
  intro l
  induction l with
  | nil => rfl
  | cons x xs ih =>
      by_cases h : x.date = d
      · simp [updateLotAtDate, h]
      · simp [updateLotAtDate, h, ih]

theorem sell_from_lot_store (m : CommodityLotsManager)
    (commodity base_account : String) (d : ℤ) (q : ℚ) (ls0 : List CommodityLot)
    (hc : dictFind m.lots (lotsKey base_account commodity) = some ls0) :
    ∀ m2, m.sell_from_lot commodity base_account d q = Except.ok m2 →
      dictFind m2.lots (lotsKey base_account commodity) =
        some (updateLotAtDate d (fun l => { l with quantity := l.quantity - q }) ls0) := by
  intro m2 h
  have hup := updateLots_cached m commodity base_account ls0 hc
  unfold CommodityLotsManager.sell_from_lot CommodityLotsManager.get_lot at h
  rw [hup] at h
  simp only [hc, Option.getD_some] at h
  cases hfind : ls0.find? (fun l => l.date = d) with
  | none => rw [hfind] at h; exact absurd h (by simp)
  | some lot =>
      rw [hfind] at h
      dsimp only at h
      by_cases hlt : |lot.quantity| < |q|
      · rw [if_pos hlt] at h; exact absurd h (by simp)
      · rw [if_neg hlt] at h
        have := Except.ok.inj h
        rw [← this]
        simp [hc, dictFind_dictSet_self]

theorem closeLoop_store_length (accounts : TradeLotsAccounts) (date : ℤ)
    (commodity : String) (u : ℚ) (avg : Option ℚ) :
    ∀ (pairs : List (ℚ × Option CommodityLot)) (st : CloseState)
      (ls0 : List CommodityLot),
      dictFind st.mgr.lots (lotsKey accounts.base_account commodity) = some ls0 →
      ∃ st' err ls1,
        closeLoop accounts date commodity u avg pairs st = (st', err) ∧
        dictFind st'.mgr.lots (lotsKey accounts.base_account commodity) = some ls1 ∧
        ls1.length = ls0.length := by
  intro pairs
  induction pairs with
  | nil => intro st ls0 hc; exact ⟨st, none, ls0, rfl, hc, rfl⟩
  | cons p rest ih =>
      intro st ls0 hc
      obtain ⟨c, olot⟩ := p
      cases olot with
      | none => exact ⟨st, some noneLotMsg, ls0, rfl, hc, rfl⟩
      | some lot =>
          by_cases hq : |lot.quantity| < |c|
          · exact ⟨st, some lotNotEnoughMsg, ls0,
              closeLoop_cons_insufficient accounts date commodity u avg c lot rest st hq,
              hc, rfl⟩
          · cases hs : st.mgr.sell_from_lot commodity accounts.base_account lot.date (-c) with
            | error e =>
                exact ⟨closeStepState accounts date commodity u avg c lot st, some e,
                  ls0,
                  closeLoop_cons_error accounts date commodity u avg c lot rest st e hq hs,
                  hc, rfl⟩
            | ok mgr2 =>
                have hstore := sell_from_lot_store st.mgr commodity
                  accounts.base_account lot.date (-c) ls0 hc mgr2 hs
                obtain ⟨st', err, ls1, hrun, hfind, hlen⟩ :=
                  ih { closeStepState accounts date commodity u avg c lot st with
                        mgr := mgr2 }
                    (updateLotAtDate lot.date
                      (fun l => { l with quantity := l.quantity - -c }) ls0) hstore
                refine ⟨st', err, ls1, ?_, hfind, ?_⟩
                · rw [closeLoop_cons_ok accounts date commodity u avg c lot rest st
                    mgr2 hq hs]
                  exact hrun
                · rw [hlen, updateLotAtDate_length]

/-! ## C5 — opening versus closing classification -/

/-- C5 amended: an aggregate-delta trade takes the opening branch — inserting
exactly one new lot dated at the trade date with quantity `delta` and unit
price `|proceeds / delta|`, with exactly the cash and lot postings — precisely
when the store has no lots or `lots[0].quantity * delta ≥ 0` (which also holds
when the first lot's quantity is zero); in every other case the closing branch
runs, which never creates nor deletes a lot (the store's length at the key is
preserved by any outcome it produces). -/
theorem aggregate_open_close_branches (fuel : ℕ) (m : CommodityLotsManager)
    (accounts : TradeLotsAccounts) (date : ℤ) (commodity : String)
    (delta p : ℚ) (ls : List CommodityLot)
    (hc : dictFind m.lots (lotsKey accounts.base_account commodity) = some ls) :
    (openingCondition ls delta = true →
      trade_lots fuel m accounts date commodity (ChangeInQuantity.aggregate delta)
          p false =
        some
          ({ m with
              lots := dictSet m.lots (lotsKey accounts.base_account commodity)
                (insortRight ⟨date, delta, ⟨PriceType.unit, |p / delta|⟩⟩ ls) },
            Except.ok
              ⟨date, "",
                [⟨accounts.base_account ++ ":cash", "$", p, none⟩,
                  ⟨lotAccount accounts.base_account commodity date,
                    map_options_commodity_symbol commodity, delta,
                    some ⟨PriceType.unit, |p / delta|⟩⟩]⟩)) ∧
    (openingCondition ls delta = false →
      ∀ mgr2 out,
        trade_lots fuel m accounts date commodity (ChangeInQuantity.aggregate delta)
            p false = some (mgr2, out) →
        ∃ ls2,
          dictFind mgr2.lots (lotsKey accounts.base_account commodity) = some ls2 ∧
          ls2.length = ls.length) := by
  have hup := updateLots_cached m commodity accounts.base_account ls hc
  constructor
  · intro hopen
    unfold trade_lots CommodityLotsManager.get_lots CommodityLotsManager.add_lot
    rw [hup]
    simp only [hc, Option.getD_some, hopen, if_true]
    rw [hup]
    simp [hc]
  · intro hclose mgr2 out hrun
    unfold trade_lots CommodityLotsManager.get_lots at hrun
    rw [hup] at hrun
    simp only [hc, Option.getD_some, hclose, Bool.false_eq_true, if_false] at hrun
    cases hf : fifoLoop ls delta fuel ⟨0, delta, []⟩ with
    | none => rw [hf] at hrun; exact absurd hrun (by simp)
    | some stf =>
        rw [hf] at hrun
        dsimp only at hrun
        obtain ⟨st', err, ls1, hcl, hfind, hlen⟩ :=
          closeLoop_store_length accounts date commodity |p / delta| none
            (stf.used.map (fun q => (q.1, some q.2))) ⟨m, [], 0, 0⟩ ls hc
        unfold trade_to_close_postings at hrun
        rw [hcl] at hrun
        cases err with
        | none =>
            have hm : st'.mgr = mgr2 := congrArg Prod.fst (Option.some.inj hrun)
            exact ⟨ls1, by rw [← hm]; exact hfind, hlen⟩
        | some e =>
            have hm : st'.mgr = mgr2 := congrArg Prod.fst (Option.some.inj hrun)
            exact ⟨ls1, by rw [← hm]; exact hfind, hlen⟩

/-- Manager for the C5 witness: no lots cached for the key. -/
def mgrC5w : CommodityLotsManager := ⟨[("acct:AAA", [])], emptyEnv⟩

/-- C5 witness (spec scenario 1): with no lots, buying +10 for −1000 opens one
new lot at the trade date with unit price `|-1000 / 10| = 100`. -/
theorem aggregate_open_close_branches_witness :
    trade_lots 3 mgrC5w ⟨"acct", "st", "lt"⟩ 11 "AAA"
        (ChangeInQuantity.aggregate 10) (-1000) false =
      some
        ({ mgrC5w with
            lots := dictSet mgrC5w.lots (lotsKey "acct" "AAA")
              (insortRight ⟨11, 10, ⟨PriceType.unit, |(-1000 : ℚ) / 10|⟩⟩ []) },
          Except.ok
            ⟨11, "",
              [⟨"acct" ++ ":cash", "$", -1000, none⟩,
                ⟨lotAccount "acct" "AAA" 11, map_options_commodity_symbol "AAA", 10,
                  some ⟨PriceType.unit, |(-1000 : ℚ) / 10|⟩⟩]⟩) :=
  (aggregate_open_close_branches 3 mgrC5w ⟨"acct", "st", "lt"⟩ 11 "AAA" 10 (-1000)
    [] (by decide)).1 rfl

/-- Manager for the C5 counterexample: the only lot has quantity zero. -/
def mgrC5z : CommodityLotsManager :=
  ⟨[("acct:AAA", [⟨0, 0, ⟨PriceType.unit, 1⟩⟩])], emptyEnv⟩

/-- C5 counterexample: with a zero-quantity first lot and `delta = -5`, the
code takes the opening branch (`0 * -5 ≥ 0`) and adds a new lot, although the
first lot's quantity does not have the same sign as `delta`, so the claim's
"opening iff no lots or same sign" is false on the code. -/
theorem zero_quantity_first_lot_opens :
    openingCondition [⟨0, 0, ⟨PriceType.unit, 1⟩⟩] (-5) = true ∧
    tradeStoreAt
        (trade_lots 3 mgrC5z ⟨"acct", "st", "lt"⟩ 7 "AAA"
          (ChangeInQuantity.aggregate (-5)) 10 false) "acct:AAA" =
      some [⟨0, 0, ⟨PriceType.unit, 1⟩⟩, ⟨7, -5, ⟨PriceType.unit, 2⟩⟩] ∧
    ¬(([⟨0, 0, ⟨PriceType.unit, 1⟩⟩] : List CommodityLot) = [] ∨
        specSameSign 0 (-5)) := by
  refine ⟨?_, ?_, ?_⟩
  · norm_num [openingCondition]
  · have hkey : ("acct" ++ ":" ++ "AAA" : String) = "acct:AAA" := by decide
    norm_num [trade_lots, tradeStoreAt, mgrC5z, CommodityLotsManager.get_lots,
      CommodityLotsManager.add_lot, CommodityLotsManager.updateLots, dictFind,
      dictSet, lotsKey, openingCondition, insortRight, emptyEnv, hkey]
  · norm_num [specSameSign]

end HledgerToolbox

namespace HledgerToolbox

/-! ## C1 — the FIFO walk does not always make progress -/

/-- Store for the C1 scenario: an open lot of 10 followed by a fully-closed
lot kept at zero quantity, as the store's own lifecycle produces. -/
def lotsC1 : List CommodityLot :=
  [⟨0, 10, ⟨PriceType.unit, 1⟩⟩, ⟨1, 0, ⟨PriceType.unit, 1⟩⟩]

/-- Manager caching `lotsC1`. -/
def mgrC1 : CommodityLotsManager := ⟨[("acct:AAA", lotsC1)], emptyEnv⟩

/-- The FIFO state after the first lot has been consumed. -/
def usedC1 : List (ℚ × CommodityLot) := [(-10, ⟨0, 10, ⟨PriceType.unit, 1⟩⟩)]

theorem fifoC1_stuck_step (n : ℕ) :
    fifoLoop lotsC1 (-15) (n + 1) ⟨1, -5, usedC1⟩ =
      fifoLoop lotsC1 (-15) n ⟨1, -5, usedC1⟩ := by
  norm_num [fifoLoop, lotsC1]

theorem fifoC1_stuck (n : ℕ) :
    fifoLoop lotsC1 (-15) n ⟨1, -5, usedC1⟩ = none := by
  induction n with
  | zero => rfl
  | succ n ih => rw [fifoC1_stuck_step]; exact ih

theorem fifoC1_first_step (n : ℕ) :
    fifoLoop lotsC1 (-15) (n + 1) ⟨0, -15, []⟩ =
      fifoLoop lotsC1 (-15) n ⟨1, -5, usedC1⟩ := by
  norm_num [fifoLoop, lotsC1, usedC1]

theorem fifoC1_none (fuel : ℕ) :
    fifoLoop lotsC1 (-15) fuel ⟨0, -15, []⟩ = none := by
  cases fuel with
  | zero => rfl
  | succ n => rw [fifoC1_first_step]; exact fifoC1_stuck n

/-- C1 (refuted by the code): on a store holding a zero-quantity fully-closed
lot, an aggregate closing trade never terminates — the source loop hits
`continue` without incrementing its index, so for every fuel bound the FIFO
walk is still running and `trade_lots` never returns. -/
theorem trade_lots_zero_lot_never_terminates (fuel : ℕ) :
    trade_lots fuel mgrC1 ⟨"acct", "st", "lt"⟩ 5 "AAA"
      (ChangeInQuantity.aggregate (-15)) 30 false = none := by
  have hkey : ("acct" ++ ":" ++ "AAA" : String) = "acct:AAA" := by decide
  have hopen : openingCondition lotsC1 (-15) = false := by
    norm_num [openingCondition, lotsC1]
  norm_num [trade_lots, mgrC1, CommodityLotsManager.get_lots,
    CommodityLotsManager.updateLots, dictFind, lotsKey, hkey, hopen, fifoC1_none]

end HledgerToolbox

namespace HledgerToolbox

/-! ## C4 — failed closes and partial mutation -/

/-- C4 amended: when the close loop of a trade fails, the store is exactly the
one produced by the successfully processed prefix of (change, lot) pairs:
lookups and the per-lot quantity check precede that lot's own mutation, but
mutations from earlier iterations of the same event persist (in particular,
when the failure hits the first pair, no lot is mutated at all). -/
theorem close_failure_keeps_prefix_mutations (accounts : TradeLotsAccounts)
    (date : ℤ) (commodity : String) (u : ℚ) (avg : Option ℚ) :
    ∀ (pairs : List (ℚ × Option CommodityLot)) (st st' : CloseState) (e : String),
      closeLoop accounts date commodity u avg pairs st = (st', some e) →
      ∃ k stk, k < pairs.length ∧
        closeLoop accounts date commodity u avg (List.take k pairs) st = (stk, none) ∧
        st'.mgr = stk.mgr := by
  intro pairs
  induction pairs with
  | nil =>
      intro st st' e h
      exact absurd (congrArg Prod.snd h) (by simp [closeLoop])
  | cons p rest ih =>
      intro st st' e h
      obtain ⟨c, olot⟩ := p
      cases olot with
      | none =>
          rw [closeLoop_cons_none] at h
          have hst : st = st' := congrArg Prod.fst h
          exact ⟨0, st, by simp, rfl, by rw [← hst]⟩
      | some lot =>
          by_cases hq : |lot.quantity| < |c|
          · rw [closeLoop_cons_insufficient accounts date commodity u avg c lot
              rest st hq] at h
            have hst : st = st' := congrArg Prod.fst h
            exact ⟨0, st, by simp, rfl, by rw [← hst]⟩
          · cases hs : st.mgr.sell_from_lot commodity accounts.base_account
                lot.date (-c) with
            | error e2 =>
                rw [closeLoop_cons_error accounts date commodity u avg c lot
                  rest st e2 hq hs] at h
                have hst : closeStepState accounts date commodity u avg c lot st = st' :=
                  congrArg Prod.fst h
                exact ⟨0, st, by simp, rfl, by rw [← hst]; rfl⟩
            | ok mgr2 =>
                rw [closeLoop_cons_ok accounts date commodity u avg c lot
                  rest st mgr2 hq hs] at h
                obtain ⟨k, stk, hk, hrun, hmgr⟩ := ih _ st' e h
                refine ⟨k + 1, stk, by simpa using hk, ?_, hmgr⟩
                rw [List.take_succ_cons]
                rw [closeLoop_cons_ok accounts date commodity u avg c lot
                  (List.take k rest) st mgr2 hq hs]
                exact hrun

/-- Store and state for the C4 witness: a single short pair that fails its
quantity check immediately. -/
def stC4w : CloseState := ⟨⟨[("acct:AAA", [⟨10, 5, ⟨PriceType.unit, 1⟩⟩])], emptyEnv⟩, [], 0, 0⟩

/-- C4 witness: a close that fails on its very first pair leaves the store
exactly as produced by the empty prefix — untouched. -/
theorem close_failure_keeps_prefix_mutations_witness :
    ∃ k stk, k < 1 ∧
      closeLoop ⟨"acct", "st", "lt"⟩ 20 "AAA" 1 none
        (List.take k [((-8 : ℚ), some (⟨10, 5, ⟨PriceType.unit, 1⟩⟩ : CommodityLot))])
        stC4w = (stk, none) ∧
      stC4w.mgr = stk.mgr := by
  have h := close_failure_keeps_prefix_mutations ⟨"acct", "st", "lt"⟩ 20 "AAA" 1 none
    [((-8 : ℚ), some (⟨10, 5, ⟨PriceType.unit, 1⟩⟩ : CommodityLot))] stC4w stC4w
    lotNotEnoughMsg
    (closeLoop_cons_insufficient ⟨"acct", "st", "lt"⟩ 20 "AAA" 1 none (-8)
      ⟨10, 5, ⟨PriceType.unit, 1⟩⟩ [] stC4w (by norm_num))
  exact h

/-- Manager for the C4 counterexample: two lots of 5. -/
def mgrC4 : CommodityLotsManager :=
  ⟨[("acct:AAA", [⟨0, 5, ⟨PriceType.unit, 1⟩⟩, ⟨10, 5, ⟨PriceType.unit, 1⟩⟩])], emptyEnv⟩

/-- C4 counterexample: the specific-lot close [(-3, day 0), (-8, day 10)]
fails on its second lot (5 < 8), yet the first lot has already been reduced
from 5 to 2 in the store — the event failed but the store was mutated,
refuting the claim that a failed closing trade mutates no lot. -/
theorem close_failure_mutates_earlier_lots :
    tradeOutcome (trade_lots 5 mgrC4 ⟨"acct", "st", "lt"⟩ 20 "AAA"
        (ChangeInQuantity.specific [(-3, 0), (-8, 10)]) 100 false) =
      some (Except.error lotNotEnoughMsg) ∧
    tradeStoreAt (trade_lots 5 mgrC4 ⟨"acct", "st", "lt"⟩ 20 "AAA"
        (ChangeInQuantity.specific [(-3, 0), (-8, 10)]) 100 false) "acct:AAA" =
      some [⟨0, 2, ⟨PriceType.unit, 1⟩⟩, ⟨10, 5, ⟨PriceType.unit, 1⟩⟩] ∧
    some [(⟨0, 2, ⟨PriceType.unit, 1⟩⟩ : CommodityLot), ⟨10, 5, ⟨PriceType.unit, 1⟩⟩] ≠
      some [(⟨0, 5, ⟨PriceType.unit, 1⟩⟩ : CommodityLot), ⟨10, 5, ⟨PriceType.unit, 1⟩⟩] := by
  have hkey : ("acct" ++ ":" ++ "AAA" : String) = "acct:AAA" := by decide
  refine ⟨?_, ?_, by simp⟩ <;>
    norm_num [trade_lots, tradeOutcome, tradeStoreAt, mgrC4,
      CommodityLotsManager.get_lots, CommodityLotsManager.get_lot,
      CommodityLotsManager.updateLots, CommodityLotsManager.sell_from_lot,
      dictFind, dictSet, lotsKey, hkey, closeLoop, closeStepState, lotCost,
      CommodityLot.unit_price_value, trade_to_close_postings, updateLotAtDate,
      List.find?, emptyEnv]

end HledgerToolbox

namespace HledgerToolbox

/-! ## C8 — average-cost mode -/

theorem list_sum_div (S : ℚ) (f : CommodityLot → ℚ) :
    ∀ l : List CommodityLot, (l.map (fun x => f x / S)).sum = (l.map f).sum / S := by
  intro l
  induction l with
  | nil => simp
  | cons x xs ih => simp [ih, add_div]

theorem map_cost_eq_unit_cost (lots : List CommodityLot)
    (hunit : ∀ l ∈ lots, l.price.price_type = PriceType.unit) :
    lots.map (fun l => l.quantity * l.price.value) =
      lots.map (fun l => l.quantity * l.unit_price_value) := by
  induction lots with
  | nil => rfl
  | cons x xs ih =>
      have hx : x.unit_price_value = x.price.value := by
        unfold CommodityLot.unit_price_value
        rw [hunit x (List.mem_cons_self x xs)]
      simp only [List.map_cons, hx]
      rw [ih (fun l hl => hunit l (List.mem_cons_of_mem x hl))]

/-- Gain accounting of a successful close-loop run carrying an explicit
average cost: every consumed pair contributes `change * (unit_price - a)`. -/
theorem closeLoop_gain_sum (accounts : TradeLotsAccounts) (date : ℤ)
    (commodity : String) (u a : ℚ) :
    ∀ (pairs : List (ℚ × Option CommodityLot)) (st st' : CloseState),
      closeLoop accounts date commodity u (some a) pairs st = (st', none) →
      st'.long_term_gain_loss + st'.short_term_gain_loss =
        st.long_term_gain_loss + st.short_term_gain_loss +
          (pairs.map Prod.fst).sum * (u - a) := by
  intro pairs
  induction pairs with
    | nil =>
        intro st st' h
        have hst : st = st' := congrArg Prod.fst h
        rw [← hst]
        simp
    | cons p rest ih =>
        intro st st' h
        obtain ⟨c, olot⟩ := p
        cases olot with
        | none =>
            rw [closeLoop_cons_none] at h
            exact absurd (congrArg Prod.snd h) (by simp)
        | some lot =>
            by_cases hq : |lot.quantity| < |c|
            · rw [closeLoop_cons_insufficient accounts date commodity u
                (some a) c lot rest st hq] at h
              exact absurd (congrArg Prod.snd h) (by simp)
            · cases hs : st.mgr.sell_from_lot commodity accounts.base_account
                  lot.date (-c) with
              | error e2 =>
                  rw [closeLoop_cons_error accounts date commodity u
                    (some a) c lot rest st e2 hq hs] at h
                  exact absurd (congrArg Prod.snd h) (by simp)
              | ok mgr2 =>
                  rw [closeLoop_cons_ok accounts date commodity u
                    (some a) c lot rest st mgr2 hq hs] at h
                  have hrec := ih _ st' h
                  have hstep :
                      ({ closeStepState accounts date commodity u
                          (some a) c lot st with
                          mgr := mgr2 } : CloseState).long_term_gain_loss +
                        ({ closeStepState accounts date commodity u
                            (some a) c lot st with
                            mgr := mgr2 } : CloseState).short_term_gain_loss =
                        st.long_term_gain_loss + st.short_term_gain_loss +
                          c * (u - a) := by
                    by_cases hlt : 365 ≤ date - lot.date <;>
                      simp [closeStepState, lotCost, hlt] <;> ring
                  rw [hrec, hstep]
                  simp only [List.map_cons, List.sum_cons]
                  ring

/-- Lots for the C8 witness (spec scenario 3): 100 @ 10 and 50 @ 12. -/
def lotsC8 : List CommodityLot :=
  [⟨0, 100, ⟨PriceType.unit, 10⟩⟩, ⟨1, 50, ⟨PriceType.unit, 12⟩⟩]

end HledgerToolbox

namespace HledgerToolbox

/-! ## C3 — consumed magnitude of an aggregate close -/

/-- The allocation computed by the FIFO walk, as a structural recursion over
the lot list: the per-step consumption
`-lots[i].quantity if abs(remainder) > abs(lots[i].quantity) else remainder`
and the update `remainder += lots[i].quantity`, on lot lists free of
zero-quantity lots (where the source loop is equivalent and terminating). -/
def fifoCollect (delta : ℚ) : List CommodityLot → ℚ → List (ℚ × CommodityLot)
  | [], _ => []
  | l :: ls, r =>
      if r * delta > 0 then
        (if |r| > |l.quantity| then -l.quantity else r, l) ::
          fifoCollect delta ls (r + l.quantity)
      else []

theorem fifoCollect_not_pos (delta : ℚ) (ls : List CommodityLot) (r : ℚ)
    (h : ¬r * delta > 0) : fifoCollect delta ls r = [] := by
  cases ls <;> simp [fifoCollect, h]

theorem fifoLoop_eq_collect (delta : ℚ) :
    ∀ (fuel : ℕ) (lots : List CommodityLot) (i : ℕ) (r : ℚ)
      (used : List (ℚ × CommodityLot)),
      (∀ l ∈ lots, l.quantity ≠ 0) → lots.length - i < fuel →
      ∃ i2 r2, fifoLoop lots delta fuel ⟨i, r, used⟩ =
        some ⟨i2, r2, used ++ fifoCollect delta (lots.drop i) r⟩ := by
  intro fuel
  induction fuel with
  | zero => intro lots i r used hnz hlt; exact absurd hlt (by omega)
  | succ fuel ih =>
      intro lots i r used hnz hlt
      by_cases hcond : r * delta > 0 ∧ i < lots.length
      · have hi : i < lots.length := hcond.2
        have hget : lots[i]? = some lots[i] := List.getElem?_eq_getElem hi
        have hdrop : lots.drop i = lots[i] :: lots.drop (i + 1) :=
          (List.drop_eq_getElem_cons hi).symm ▸ rfl
        have hq : lots[i].quantity ≠ 0 := hnz _ (List.getElem_mem hi)
        obtain ⟨i2, r2, hrec⟩ := ih lots (i + 1) (r + lots[i].quantity)
          (used ++ [(if |r| > |lots[i].quantity| then -lots[i].quantity else r,
            lots[i])]) hnz (by omega)
        refine ⟨i2, r2, ?_⟩
        simp only [fifoLoop]
        rw [if_pos hcond, hget]
        dsimp only
        rw [if_neg hq]
        rw [hrec]
        rw [hdrop]
        simp only [fifoCollect, if_pos hcond.1]
        rw [List.append_assoc]
        rfl
      · refine ⟨i, r, ?_⟩
        simp only [fifoLoop]
        rw [if_neg hcond]
        rcases not_and_or.mp hcond with hr | hlen
        · rw [fifoCollect_not_pos delta _ r hr]
          simp
        · rw [List.drop_eq_nil_of_le (by omega)]
          simp [fifoCollect]

end HledgerToolbox

namespace HledgerToolbox

theorem list_sum_nonpos (l : List ℚ) (h : ∀ x ∈ l, x ≤ 0) : l.sum ≤ 0 := by
  induction l with
  | nil => simp
  | cons x xs ih =>
      have hx := h x (List.mem_cons_self x xs)
      have hxs := ih (fun y hy => h y (List.mem_cons_of_mem x hy))
      simp only [List.sum_cons]
      linarith

theorem list_sum_nonneg (l : List ℚ) (h : ∀ x ∈ l, 0 ≤ x) : 0 ≤ l.sum := by
  induction l with
  | nil => simp
  | cons x xs ih =>
      have hx := h x (List.mem_cons_self x xs)
      have hxs := ih (fun y hy => h y (List.mem_cons_of_mem x hy))
      simp only [List.sum_cons]
      linarith

/-- The signed sum consumed by the FIFO allocation: the whole remaining
request when the lots suffice, otherwise the negation of everything held. -/
theorem fifoCollect_sum (delta : ℚ) :
    ∀ (ls : List CommodityLot) (r : ℚ),
      (∀ l ∈ ls, l.quantity * delta < 0) → r * delta > 0 →
      ((fifoCollect delta ls r).map Prod.fst).sum =
        if |r| ≤ |(ls.map (fun l => l.quantity)).sum| then r
        else -(ls.map (fun l => l.quantity)).sum := by
  intro ls
  induction ls with
  | nil =>
      intro r _ hr
      have hr0 : r ≠ 0 := by
        intro h
        rw [h] at hr
        simp at hr
      rw [if_neg (by simpa [abs_eq_zero] using hr0)]
      simp [fifoCollect]
  | cons l tail ih =>
      intro r hopp hr
      have hql : l.quantity * delta < 0 := hopp l (List.mem_cons_self l tail)
      have htail : ∀ x ∈ tail, x.quantity * delta < 0 :=
        fun x hx => hopp x (List.mem_cons_of_mem l hx)
      have hdelta : delta ≠ 0 := by
        intro h
        rw [h] at hql
        simp at hql
      simp only [fifoCollect, if_pos hr, List.map_cons, List.sum_cons]
      rcases lt_or_gt_of_ne hdelta with hdneg | hdpos
      · -- delta < 0 : remainder negative, lots positive
        have hrneg : r < 0 := by nlinarith
        have hqpos : 0 < l.quantity := by nlinarith
        have htailpos : ∀ x ∈ tail.map (fun y => y.quantity), 0 ≤ x := by
          intro x hx
          obtain ⟨y, hy, rfl⟩ := List.mem_map.mp hx
          nlinarith [htail y hy]
        have hS : 0 ≤ (tail.map (fun y => y.quantity)).sum :=
          list_sum_nonneg _ htailpos
        by_cases hfull : |r| > |l.quantity|
        · have habs : -r > l.quantity := by
            rw [abs_of_neg hrneg, abs_of_pos hqpos] at hfull
            linarith
          have hr2 : (r + l.quantity) * delta > 0 := by nlinarith
          rw [if_pos hfull]
          rw [ih (r + l.quantity) htail hr2]
          have hiff : |r + l.quantity| ≤ |(tail.map (fun y => y.quantity)).sum| ↔
              |r| ≤ |l.quantity + (tail.map (fun y => y.quantity)).sum| := by
            rw [abs_of_neg (by linarith), abs_of_neg hrneg,
              abs_of_nonneg hS, abs_of_nonneg (by linarith)]
            constructor <;> intro h <;> linarith
          by_cases hc : |r| ≤ |l.quantity + (tail.map (fun y => y.quantity)).sum|
          · rw [if_pos (hiff.mpr hc), if_pos hc]
            ring
          · rw [if_neg (fun hh => hc (hiff.mp hh)), if_neg hc]
            ring
        · have habs : -r ≤ l.quantity := by
            rw [abs_of_neg hrneg, abs_of_pos hqpos] at hfull
            linarith
          have hr2 : ¬(r + l.quantity) * delta > 0 := by nlinarith
          rw [if_neg hfull]
          rw [fifoCollect_not_pos delta tail (r + l.quantity) hr2]
          rw [if_pos (by
            rw [abs_of_neg hrneg, abs_of_nonneg (by linarith)]
            linarith)]
          simp
      · -- delta > 0 : remainder positive, lots negative
        have hrpos : 0 < r := by nlinarith
        have hqneg : l.quantity < 0 := by nlinarith
        have htailneg : ∀ x ∈ tail.map (fun y => y.quantity), x ≤ 0 := by
          intro x hx
          obtain ⟨y, hy, rfl⟩ := List.mem_map.mp hx
          nlinarith [htail y hy]
        have hS : (tail.map (fun y => y.quantity)).sum ≤ 0 :=
          list_sum_nonpos _ htailneg
        by_cases hfull : |r| > |l.quantity|
        · have habs : r > -l.quantity := by
            rw [abs_of_pos hrpos, abs_of_neg hqneg] at hfull
            linarith
          have hr2 : (r + l.quantity) * delta > 0 := by nlinarith
          rw [if_pos hfull]
          rw [ih (r + l.quantity) htail hr2]
          have hiff : |r + l.quantity| ≤ |(tail.map (fun y => y.quantity)).sum| ↔
              |r| ≤ |l.quantity + (tail.map (fun y => y.quantity)).sum| := by
            rw [abs_of_pos (by linarith), abs_of_pos hrpos,
              abs_of_nonpos hS, abs_of_nonpos (by linarith)]
            constructor <;> intro h <;> linarith
          by_cases hc : |r| ≤ |l.quantity + (tail.map (fun y => y.quantity)).sum|
          · rw [if_pos (hiff.mpr hc), if_pos hc]
            ring
          · rw [if_neg (fun hh => hc (hiff.mp hh)), if_neg hc]
            ring
        · have habs : r ≤ -l.quantity := by
            rw [abs_of_pos hrpos, abs_of_neg hqneg] at hfull
            linarith
          have hr2 : ¬(r + l.quantity) * delta > 0 := by nlinarith
          rw [if_neg hfull]
          rw [fifoCollect_not_pos delta tail (r + l.quantity) hr2]
          rw [if_pos (by
            rw [abs_of_pos hrpos, abs_of_nonpos (by linarith)]
            linarith)]
          simp

end HledgerToolbox

namespace HledgerToolbox

theorem find_date_append (xs : List CommodityLot) (l : CommodityLot)
    (ys : List CommodityLot) (hx : ∀ x ∈ xs, x.date ≠ l.date) :
    (xs ++ l :: ys).find? (fun x => x.date = l.date) = some l := by
  induction xs with
  | nil => simp [List.find?]
  | cons x xs ih =>
      rw [List.cons_append,
        List.find?_cons_of_neg _ (by simpa using hx x (List.mem_cons_self x xs))]
      exact ih (fun y hy => hx y (List.mem_cons_of_mem x hy))

theorem updateLotAtDate_append (xs : List CommodityLot) (l : CommodityLot)
    (ys : List CommodityLot) (f : CommodityLot → CommodityLot)
    (hx : ∀ x ∈ xs, x.date ≠ l.date) :
    updateLotAtDate l.date f (xs ++ l :: ys) = xs ++ f l :: ys := by
  induction xs with
  | nil => simp [updateLotAtDate]
  | cons x xs ih =>
      have hxl : x.date ≠ l.date := hx x (List.mem_cons_self x xs)
      simp only [List.cons_append, updateLotAtDate, if_neg hxl]
      exact congrArg (List.cons x) (ih (fun y hy => hx y (List.mem_cons_of_mem x hy)))

theorem sell_from_lot_ok (m : CommodityLotsManager)
    (commodity base_account : String) (d : ℤ) (q : ℚ)
    (ls : List CommodityLot) (lot : CommodityLot)
    (hc : dictFind m.lots (lotsKey base_account commodity) = some ls)
    (hfind : ls.find? (fun l => l.date = d) = some lot)
    (hge : ¬|lot.quantity| < |q|) :
    m.sell_from_lot commodity base_account d q =
      Except.ok
        { m with
          lots := dictSet m.lots (lotsKey base_account commodity)
            (updateLotAtDate d (fun l => { l with quantity := l.quantity - q }) ls) } := by
  have hup := updateLots_cached m commodity base_account ls hc
  unfold CommodityLotsManager.sell_from_lot CommodityLotsManager.get_lot
  rw [hup]
  simp [hc, hfind, hge]

/-- Running the close loop on the pairs produced by the FIFO allocation from a
store suffix: every per-lot check passes, the loop succeeds, and the store's
total quantity moves by exactly the allocated sum. -/
theorem closeLoop_collect_run (accounts : TradeLotsAccounts) (date : ℤ)
    (commodity : String) (u : ℚ) (avg : Option ℚ) (delta : ℚ) :
    ∀ (ls done : List CommodityLot) (r : ℚ) (st : CloseState),
      dictFind st.mgr.lots (lotsKey accounts.base_account commodity) =
        some (done ++ ls) →
      ((done ++ ls).map (fun x => x.date)).Nodup →
      ∃ st', closeLoop accounts date commodity u avg
          ((fifoCollect delta ls r).map (fun q => (q.1, some q.2))) st = (st', none) ∧
        ∃ ls2,
          dictFind st'.mgr.lots (lotsKey accounts.base_account commodity) = some ls2 ∧
          (ls2.map (fun x => x.quantity)).sum =
            ((done ++ ls).map (fun x => x.quantity)).sum +
              ((fifoCollect delta ls r).map Prod.fst).sum := by
  intro ls
  induction ls with
  | nil =>
      intro done r st hc _
      refine ⟨st, by simp [fifoCollect, closeLoop], done ++ [], by simpa using hc, ?_⟩
      simp [fifoCollect]
  | cons l tail ih =>
      intro done r st hc hnd
      by_cases hrpos : r * delta > 0
      · have hdone : ∀ x ∈ done, x.date ≠ l.date := by
          intro x hx
          have hsplit := hnd
          rw [List.map_append, List.nodup_append] at hsplit
          intro heq
          exact hsplit.2.2 (List.mem_map_of_mem _ hx) (by simp [heq])
        have he : ¬|l.quantity| < |if |r| > |l.quantity| then -l.quantity else r| := by
          by_cases hf : |r| > |l.quantity|
          · rw [if_pos hf, abs_neg]
            exact lt_irrefl _
          · rw [if_neg hf]
            push_neg at hf
            exact not_lt.mpr hf
        have hfind : (done ++ l :: tail).find? (fun x => x.date = l.date) = some l :=
          find_date_append done l tail hdone
        set e := if |r| > |l.quantity| then -l.quantity else r with hedef
        have he2 : ¬|l.quantity| < |(-e : ℚ)| := by rwa [abs_neg]
        have hsell := sell_from_lot_ok st.mgr commodity accounts.base_account
          l.date (-e) (done ++ l :: tail) l hc hfind he2
        have hupd : updateLotAtDate l.date
            (fun x => { x with quantity := x.quantity - -e }) (done ++ l :: tail) =
            done ++ { l with quantity := l.quantity - -e } :: tail :=
          updateLotAtDate_append done l tail _ hdone
        rw [hupd] at hsell
        have hcons := closeLoop_cons_ok accounts date commodity u avg e l
          ((fifoCollect delta tail (r + l.quantity)).map (fun q => (q.1, some q.2)))
          st _ he hsell
        have hstore2 : dictFind
            ({ st.mgr with
                lots := dictSet st.mgr.lots (lotsKey accounts.base_account commodity)
                  (done ++ { l with quantity := l.quantity - -e } :: tail) } :
              CommodityLotsManager).lots (lotsKey accounts.base_account commodity) =
            some ((done ++ [{ l with quantity := l.quantity - -e }]) ++ tail) := by
          dsimp only
          rw [dictFind_dictSet_self]
          simp
        have hnd2 : (((done ++ ([{ l with quantity := l.quantity - -e }] :
            List CommodityLot)) ++ tail).map (fun x => x.date)).Nodup := by
          have hmapeq : ((done ++ ([{ l with quantity := l.quantity - -e }] :
              List CommodityLot)) ++ tail).map (fun x => x.date) =
              (done ++ l :: tail).map (fun x => x.date) := by
            simp
          rw [hmapeq]
          exact hnd
        obtain ⟨st', hrun, ls2, hfind2, hsum⟩ := ih
          (done ++ [{ l with quantity := l.quantity - -e }]) (r + l.quantity)
          { closeStepState accounts date commodity u avg e l st with
              mgr := { st.mgr with
                lots := dictSet st.mgr.lots (lotsKey accounts.base_account commodity)
                  (done ++ { l with quantity := l.quantity - -e } :: tail) } }
          hstore2 hnd2
        refine ⟨st', ?_, ls2, hfind2, ?_⟩
        · simp only [fifoCollect, if_pos hrpos, List.map_cons]
          rw [← hedef]
          rw [hcons]
          exact hrun
        · rw [hsum]
          simp only [fifoCollect, if_pos hrpos, List.map_cons, List.sum_cons,
            List.map_append, List.sum_append, List.sum_cons]
          simp
          ring
      · rw [fifoCollect_not_pos delta _ r hrpos]
        refine ⟨st, by simp [closeLoop], done ++ (l :: tail), by simpa using hc, ?_⟩
        simp

end HledgerToolbox

namespace HledgerToolbox

/-- C3 amended: an aggregate closing trade over nonzero lots all opposed in
sign to `delta` (with distinct dates and enough fuel) always returns a built
transaction — no `InsufficientLots` failure exists — and the store's total
quantity moves by exactly `delta` when the lots suffice
(`|delta| ≤ |total|`: no leftover, no double count) and by the entire
available total otherwise (the trade silently closes less than requested). -/
theorem aggregate_close_consumes_min (fuel : ℕ) (m : CommodityLotsManager)
    (accounts : TradeLotsAccounts) (date : ℤ) (commodity : String)
    (delta p : ℚ) (ls : List CommodityLot)
    (hc : dictFind m.lots (lotsKey accounts.base_account commodity) = some ls)
    (hne : ls ≠ [])
    (hopp : ∀ l ∈ ls, l.quantity * delta < 0)
    (hdates : (ls.map (fun x => x.date)).Nodup)
    (hfuel : ls.length < fuel) :
    ∃ mgr2 tx,
      trade_lots fuel m accounts date commodity (ChangeInQuantity.aggregate delta)
          p false = some (mgr2, Except.ok tx) ∧
      ∃ ls2,
        dictFind mgr2.lots (lotsKey accounts.base_account commodity) = some ls2 ∧
        (ls2.map (fun x => x.quantity)).sum =
          (ls.map (fun x => x.quantity)).sum +
            (if |delta| ≤ |(ls.map (fun x => x.quantity)).sum| then delta
             else -(ls.map (fun x => x.quantity)).sum) := by
  have hup := updateLots_cached m commodity accounts.base_account ls hc
  have hnz : ∀ l ∈ ls, l.quantity ≠ 0 := by
    intro l hl h0
    have := hopp l hl
    rw [h0] at this
    simp at this
  have hdelta : delta ≠ 0 := by
    intro h0
    cases ls with
    | nil => exact hne rfl
    | cons l0 t =>
        have := hopp l0 (List.mem_cons_self l0 t)
        rw [h0] at this
        simp at this
  have hddp : delta * delta > 0 := mul_self_pos.mpr hdelta
  have hopen : openingCondition ls delta = false := by
    cases ls with
    | nil => exact absurd rfl hne
    | cons l0 t =>
        simp only [openingCondition]
        exact decide_eq_false_iff_not.mpr
          (not_le.mpr (hopp l0 (List.mem_cons_self l0 t)))
  obtain ⟨i2, r2, hfifo⟩ := fifoLoop_eq_collect delta fuel ls 0 delta [] hnz (by omega)
  simp only [List.drop_zero, List.nil_append] at hfifo
  obtain ⟨st', hclrun, ls2, hfind2, hsum⟩ := closeLoop_collect_run accounts date
    commodity |p / delta| none delta ls [] delta ⟨m, [], 0, 0⟩ (by simpa using hc)
    (by simpa using hdates)
  have hconsumed := fifoCollect_sum delta ls delta hopp hddp
  have heq : trade_lots fuel m accounts date commodity
      (ChangeInQuantity.aggregate delta) p false =
      some (st'.mgr, Except.ok
        ⟨date, "",
          (⟨accounts.base_account ++ ":cash", "$", p, none⟩ : Posting) ::
            (st'.postings ++
              (if st'.long_term_gain_loss ≠ 0 then
                [⟨accounts.long_term_account, "$", st'.long_term_gain_loss, none⟩]
              else []) ++
              (if st'.short_term_gain_loss ≠ 0 then
                [⟨accounts.short_term_account, "$", st'.short_term_gain_loss, none⟩]
              else []))⟩) := by
    unfold trade_lots CommodityLotsManager.get_lots
    rw [hup]
    simp only [hc, Option.getD_some, hopen, Bool.false_eq_true, if_false]
    rw [hfifo]
    dsimp only
    unfold trade_to_close_postings
    rw [hclrun]
  refine ⟨st'.mgr, _, heq, ls2, hfind2, ?_⟩
  rw [hsum, hconsumed]
  simp

end HledgerToolbox

namespace HledgerToolbox

/-- Lots for the C3 witness: 5 and 7 units held long. -/
def lotsC3w : List CommodityLot :=
  [⟨0, 5, ⟨PriceType.unit, 2⟩⟩, ⟨1, 7, ⟨PriceType.unit, 3⟩⟩]

/-- Manager caching `lotsC3w`. -/
def mgrC3w : CommodityLotsManager := ⟨[("acct:AAA", lotsC3w)], emptyEnv⟩

/-- C3 witness: closing −8 against 12 held consumes exactly 8 (the store total
moves from 12 to 4) and the trade returns a transaction. -/
theorem aggregate_close_consumes_min_witness :
    ∃ mgr2 tx,
      trade_lots 3 mgrC3w ⟨"acct", "st", "lt"⟩ 100 "AAA"
          (ChangeInQuantity.aggregate (-8)) 40 false = some (mgr2, Except.ok tx) ∧
      ∃ ls2,
        dictFind mgr2.lots (lotsKey "acct" "AAA") = some ls2 ∧
        (ls2.map (fun x => x.quantity)).sum =
          (lotsC3w.map (fun x => x.quantity)).sum +
            (if |(-8 : ℚ)| ≤ |(lotsC3w.map (fun x => x.quantity)).sum| then (-8 : ℚ)
             else -(lotsC3w.map (fun x => x.quantity)).sum) :=
  aggregate_close_consumes_min 3 mgrC3w ⟨"acct", "st", "lt"⟩ 100 "AAA" (-8) 40
    lotsC3w (by decide) (by decide)
    (by
      intro l hl
      simp only [lotsC3w, List.mem_cons, List.not_mem_nil, or_false] at hl
      rcases hl with rfl | rfl <;> norm_num)
    (by decide) (by decide)

/-- Manager for the C3 counterexample: one lot of 10. -/
def mgrC3x : CommodityLotsManager :=
  ⟨[("acct:AAA", [⟨0, 10, ⟨PriceType.unit, 1⟩⟩])], emptyEnv⟩

/-- C3 counterexample: requesting a close of magnitude 25 against a single lot
of 10 neither consumes 25 nor fails — `trade_lots` returns a built transaction
(outcome `ok`, there is no `InsufficientLots` failure) that closes only 10,
leaving the store total at zero. -/
theorem exhausted_close_returns_ok :
    tradeOutcome (trade_lots 5 mgrC3x ⟨"acct", "st", "lt"⟩ 20 "AAA"
        (ChangeInQuantity.aggregate (-25)) 50 false) =
      some (Except.ok
        ⟨20, "",
          [⟨"acct" ++ ":cash", "$", 50, none⟩,
            ⟨lotAccount "acct" "AAA" 0, map_options_commodity_symbol "AAA", -10,
              some ⟨PriceType.unit, 1⟩⟩,
            ⟨"st", "$", -10, none⟩]⟩) ∧
    tradeStoreAt (trade_lots 5 mgrC3x ⟨"acct", "st", "lt"⟩ 20 "AAA"
        (ChangeInQuantity.aggregate (-25)) 50 false) "acct:AAA" =
      some [⟨0, 0, ⟨PriceType.unit, 1⟩⟩] ∧
    (10 : ℚ) ≠ 25 := by
  have hkey : ("acct" ++ ":" ++ "AAA" : String) = "acct:AAA" := by decide
  refine ⟨?_, ?_, by norm_num⟩ <;>
    norm_num [trade_lots, tradeOutcome, tradeStoreAt, mgrC3x,
      CommodityLotsManager.get_lots, CommodityLotsManager.get_lot,
      CommodityLotsManager.updateLots, CommodityLotsManager.sell_from_lot,
      dictFind, dictSet, lotsKey, hkey, openingCondition, fifoLoop, closeLoop,
      closeStepState, lotCost, CommodityLot.unit_price_value,
      trade_to_close_postings, updateLotAtDate, List.find?, emptyEnv]

end HledgerToolbox

namespace HledgerToolbox

/-! ## C10 — string-concatenation cache keys alias -/

theorem find_updateLotAtDate (d : ℤ) (f : CommodityLot → CommodityLot)
    (hf : ∀ l, (f l).date = l.date) :
    ∀ (ls : List CommodityLot) (lot : CommodityLot),
      ls.find? (fun l => l.date = d) = some lot →
      (updateLotAtDate d f ls).find? (fun l => l.date = d) = some (f lot) := by
  intro ls
  induction ls with
  | nil => intro lot h; simp [List.find?] at h
  | cons x xs ih =>
      intro lot h
      by_cases hx : x.date = d
      · rw [List.find?_cons_of_pos _ (by simpa using hx)] at h
        have hxl : x = lot := Option.some.inj h
        unfold updateLotAtDate
        rw [if_pos hx]
        rw [List.find?_cons_of_pos _ (by simpa [hf x] using hx)]
        rw [hxl]
      · rw [List.find?_cons_of_neg _ (by simpa using hx)] at h
        unfold updateLotAtDate
        rw [if_neg hx]
        rw [List.find?_cons_of_neg _ (by simpa using hx)]
        exact ih lot h

/-- C10: two (account, commodity) pairs whose concatenated keys coincide
address the same cached entry: a lot added under the first pair is returned by
`get_lots` and found by `get_lot` under the second pair, and a reduction made
by `sell_from_lot` under the first pair is likewise observed by `get_lots` and
`get_lot` under the second pair. -/
theorem cache_key_aliasing (m : CommodityLotsManager) (a1 c1 a2 c2 : String)
    (ls : List CommodityLot) (d : ℤ) (q : ℚ) (pr : Price) (d2 : ℤ) (q2 : ℚ)
    (lot : CommodityLot)
    (hkey : lotsKey a1 c1 = lotsKey a2 c2)
    (hc : dictFind m.lots (lotsKey a1 c1) = some ls)
    (hd : ∀ l ∈ ls, l.date ≠ d)
    (hfind : ls.find? (fun l => l.date = d2) = some lot)
    (hq2 : ¬|lot.quantity| < |q2|) :
    ((m.add_lot c1 a1 d q pr).get_lots c2 a2).2 = insortRight ⟨d, q, pr⟩ ls ∧
    ((m.add_lot c1 a1 d q pr).get_lot c2 a2 d).2 = some ⟨d, q, pr⟩ ∧
    m.sell_from_lot c1 a1 d2 q2 =
      Except.ok
        { m with
          lots := dictSet m.lots (lotsKey a1 c1)
            (updateLotAtDate d2 (fun l => { l with quantity := l.quantity - q2 }) ls) } ∧
    (({ m with
        lots := dictSet m.lots (lotsKey a1 c1)
          (updateLotAtDate d2 (fun l => { l with quantity := l.quantity - q2 }) ls) } :
      CommodityLotsManager).get_lots c2 a2).2 =
      updateLotAtDate d2 (fun l => { l with quantity := l.quantity - q2 }) ls ∧
    (({ m with
        lots := dictSet m.lots (lotsKey a1 c1)
          (updateLotAtDate d2 (fun l => { l with quantity := l.quantity - q2 }) ls) } :
      CommodityLotsManager).get_lot c2 a2 d2).2 =
      some { lot with quantity := lot.quantity - q2 } := by
  have hup := updateLots_cached m c1 a1 ls hc
  have hstore : (m.add_lot c1 a1 d q pr).lots =
      dictSet m.lots (lotsKey a1 c1) (insortRight ⟨d, q, pr⟩ ls) := by
    unfold CommodityLotsManager.add_lot
    rw [hup]
    simp [hc]
  have hfind2 : dictFind (m.add_lot c1 a1 d q pr).lots (lotsKey a2 c2) =
      some (insortRight ⟨d, q, pr⟩ ls) := by
    rw [hstore, ← hkey, dictFind_dictSet_self]
  have hup2 : (m.add_lot c1 a1 d q pr).updateLots c2 a2 = m.add_lot c1 a1 d q pr :=
    updateLots_cached _ _ _ _ hfind2
  have hfind3 : dictFind
      ({ m with
          lots := dictSet m.lots (lotsKey a1 c1)
            (updateLotAtDate d2 (fun l => { l with quantity := l.quantity - q2 }) ls) } :
        CommodityLotsManager).lots (lotsKey a2 c2) =
      some (updateLotAtDate d2 (fun l => { l with quantity := l.quantity - q2 }) ls) := by
    dsimp only
    rw [← hkey, dictFind_dictSet_self]
  have hup3 := updateLots_cached _ c2 a2 _ hfind3
  refine ⟨?_, ?_, ?_, ?_, ?_⟩
  · unfold CommodityLotsManager.get_lots
    rw [hup2]
    simp [hfind2]
  · unfold CommodityLotsManager.get_lot
    rw [hup2]
    simp [hfind2, insortRight_find_fresh d q pr ls hd]
  · exact sell_from_lot_ok m c1 a1 d2 q2 ls lot hc hfind hq2
  · unfold CommodityLotsManager.get_lots
    rw [hup3]
    simp [hfind3]
  · unfold CommodityLotsManager.get_lot
    rw [hup3]
    simp only [hfind3, Option.getD_some]
    exact find_updateLotAtDate d2 (fun l => { l with quantity := l.quantity - q2 })
      (fun l => rfl) ls lot hfind

/-- Concrete manager for the C10 witness, caching the shared key `"x:y:z"`
with one lot of 4 acquired on day 5. -/
def mgrC10 : CommodityLotsManager :=
  ⟨[("x:y:z", [⟨5, 4, ⟨PriceType.unit, 1⟩⟩])], emptyEnv⟩

/-- C10 witness: a lot added under `("x:y", "z")` and a reduction of 3 sold
from the day-5 lot under the same pair are both observed under
`("x", "y:z")`, the two pairs concatenating to the key `"x:y:z"`. -/
theorem cache_key_aliasing_witness :
    ((mgrC10.add_lot "z" "x:y" 0 1 ⟨PriceType.unit, 1⟩).get_lots "y:z" "x").2 =
      [⟨0, 1, ⟨PriceType.unit, 1⟩⟩, ⟨5, 4, ⟨PriceType.unit, 1⟩⟩] ∧
    ((mgrC10.add_lot "z" "x:y" 0 1 ⟨PriceType.unit, 1⟩).get_lot "y:z" "x" 0).2 =
      some ⟨0, 1, ⟨PriceType.unit, 1⟩⟩ ∧
    (({ mgrC10 with
        lots := dictSet mgrC10.lots (lotsKey "x:y" "z")
          (updateLotAtDate 5 (fun l => { l with quantity := l.quantity - 3 })
            [⟨5, 4, ⟨PriceType.unit, 1⟩⟩]) } :
      CommodityLotsManager).get_lot "y:z" "x" 5).2 =
      some ⟨5, 1, ⟨PriceType.unit, 1⟩⟩ := by
  have h := cache_key_aliasing mgrC10 "x:y" "z" "x" "y:z"
    [⟨5, 4, ⟨PriceType.unit, 1⟩⟩] 0 1 ⟨PriceType.unit, 1⟩ 5 3
    ⟨5, 4, ⟨PriceType.unit, 1⟩⟩
    (by decide) (by decide) (by simp) (by decide) (by norm_num)
  refine ⟨?_, ?_, ?_⟩
  · have h1 := h.1
    simpa [insortRight] using h1
  · exact h.2.1
  · have h5 := h.2.2.2.2
    rw [h5]
    norm_num

end HledgerToolbox

namespace HledgerToolbox

/-! ## C8 (continued) — where average-cost mode actually applies -/

/-- Manager for the C8 scenarios, caching the spec's scenario-3 lots. -/
def mgrC8x : CommodityLotsManager := ⟨[("acct:AAA", lotsC8)], emptyEnv⟩

/-- C8 counterexample: with average-cost mode requested, the specific-lot
close `[(-30, day 0)]` of lots (100 @ 10, 50 @ 12) books a short-term
gain/loss of `-30 × (40/3 − 10) = -100` from the lot's own unit cost 10,
not `-30 × (40/3 − 32/3) = -80` from the weighted average `32/3` the claim
requires: the specific-lot path of `trade_lots` ignores `use_average_cost`. -/
theorem specific_close_ignores_average :
    tradeOutcome (trade_lots 3 mgrC8x ⟨"acct", "st", "lt"⟩ 20 "AAA"
        (ChangeInQuantity.specific [(-30, 0)]) 400 true) =
      some (Except.ok
        ⟨20, "",
          [⟨"acct" ++ ":cash", "$", 400, none⟩,
            ⟨lotAccount "acct" "AAA" 0, map_options_commodity_symbol "AAA", -30,
              some ⟨PriceType.unit, 10⟩⟩,
            ⟨"st", "$", -100, none⟩]⟩) ∧
    averageUnitCost lotsC8 = 32 / 3 ∧
    (-30 : ℚ) * (|(400 : ℚ) / (-30)| - 32 / 3) = -80 ∧
    ((-100 : ℚ) ≠ -80) := by
  have hkey : ("acct" ++ ":" ++ "AAA" : String) = "acct:AAA" := by decide
  have habs2 : |(40 : ℚ) / 3| = 40 / 3 := abs_of_nonneg (by norm_num)
  refine ⟨?_, ?_, ?_, by norm_num⟩
  · norm_num [trade_lots, tradeOutcome, mgrC8x, lotsC8, habs2,
      CommodityLotsManager.get_lot, CommodityLotsManager.updateLots,
      CommodityLotsManager.sell_from_lot, dictFind, dictSet, lotsKey, hkey,
      closeLoop, closeStepState, lotCost, CommodityLot.unit_price_value,
      trade_to_close_postings, updateLotAtDate, List.find?, emptyEnv]
  · norm_num [averageUnitCost, lotsC8]
  · have habs : |(400 : ℚ) / (-30)| = 40 / 3 := by
      rw [show (400 : ℚ) / (-30) = -(40 / 3) by norm_num, abs_neg,
        abs_of_nonneg (by norm_num : (0 : ℚ) ≤ 40 / 3)]
    rw [habs]
    norm_num

end HledgerToolbox

namespace HledgerToolbox

/-- C8 amended: the weighted-average cost equals
`Σ(quantity × unit_cost) / Σ(quantity)` over all lots of the
(account, commodity); average-cost mode however governs only the
aggregate-delta FIFO path of `trade_lots` — there a requested average-cost
close succeeds and realizes a total gain/loss of exactly
`(Σ consumed quantity) × (unit_price − average)`, independent of which lots
are drawn down — while the specific-lot path ignores `use_average_cost`
entirely (its result is identical with the flag on or off) and always applies
each lot's own unit cost. -/
theorem average_cost_mode (lots : List CommodityLot)
    (hunit : ∀ l ∈ lots, l.price.price_type = PriceType.unit)
    (_hS : (lots.map (fun l => l.quantity)).sum ≠ 0) :
    averageUnitCost lots =
      (lots.map (fun l => l.quantity * l.unit_price_value)).sum /
        (lots.map (fun l => l.quantity)).sum ∧
    (∀ (fuel : ℕ) (m : CommodityLotsManager) (accounts : TradeLotsAccounts)
        (date : ℤ) (commodity : String) (pairsIn : List (ℚ × ℤ)) (p : ℚ),
      trade_lots fuel m accounts date commodity
          (ChangeInQuantity.specific pairsIn) p true =
        trade_lots fuel m accounts date commodity
          (ChangeInQuantity.specific pairsIn) p false) ∧
    (∀ (fuel : ℕ) (m : CommodityLotsManager) (accounts : TradeLotsAccounts)
        (date : ℤ) (commodity : String) (delta p : ℚ),
      dictFind m.lots (lotsKey accounts.base_account commodity) = some lots →
      lots ≠ [] →
      (∀ l ∈ lots, l.quantity * delta < 0) →
      (lots.map (fun x => x.date)).Nodup →
      lots.length < fuel →
      ∃ st' : CloseState,
        trade_lots fuel m accounts date commodity
            (ChangeInQuantity.aggregate delta) p true =
          some (st'.mgr, Except.ok
            ⟨date, "",
              (⟨accounts.base_account ++ ":cash", "$", p, none⟩ : Posting) ::
                (st'.postings ++
                  (if st'.long_term_gain_loss ≠ 0 then
                    [⟨accounts.long_term_account, "$", st'.long_term_gain_loss, none⟩]
                  else []) ++
                  (if st'.short_term_gain_loss ≠ 0 then
                    [⟨accounts.short_term_account, "$", st'.short_term_gain_loss, none⟩]
                  else []))⟩) ∧
        st'.long_term_gain_loss + st'.short_term_gain_loss =
          ((fifoCollect delta lots delta).map Prod.fst).sum *
            (|p / delta| - averageUnitCost lots)) := by
  refine ⟨?_, ?_, ?_⟩
  · unfold averageUnitCost
    rw [list_sum_div ((lots.map (fun l => l.quantity)).sum)
      (fun l => l.quantity * l.price.value) lots]
    rw [map_cost_eq_unit_cost lots hunit]
  · intro fuel m accounts date commodity pairsIn p
    rfl
  · intro fuel m accounts date commodity delta p hc hne hopp hdates hfuel
    have hup := updateLots_cached m commodity accounts.base_account lots hc
    have hnz : ∀ l ∈ lots, l.quantity ≠ 0 := by
      intro l hl h0
      have := hopp l hl
      rw [h0] at this
      simp at this
    have hopen : openingCondition lots delta = false := by
      cases lots with
      | nil => exact absurd rfl hne
      | cons l0 t =>
          simp only [openingCondition]
          exact decide_eq_false_iff_not.mpr
            (not_le.mpr (hopp l0 (List.mem_cons_self l0 t)))
    obtain ⟨i2, r2, hfifo⟩ := fifoLoop_eq_collect delta fuel lots 0 delta [] hnz
      (by omega)
    simp only [List.drop_zero, List.nil_append] at hfifo
    obtain ⟨st', hclrun, ls2, hfind2, hsum⟩ := closeLoop_collect_run accounts date
      commodity |p / delta| (some (averageUnitCost lots)) delta lots [] delta
      ⟨m, [], 0, 0⟩ (by simpa using hc) (by simpa using hdates)
    have hgain := closeLoop_gain_sum accounts date commodity |p / delta|
      (averageUnitCost lots) _ _ _ hclrun
    have heq : trade_lots fuel m accounts date commodity
        (ChangeInQuantity.aggregate delta) p true =
        some (st'.mgr, Except.ok
          ⟨date, "",
            (⟨accounts.base_account ++ ":cash", "$", p, none⟩ : Posting) ::
              (st'.postings ++
                (if st'.long_term_gain_loss ≠ 0 then
                  [⟨accounts.long_term_account, "$", st'.long_term_gain_loss, none⟩]
                else []) ++
                (if st'.short_term_gain_loss ≠ 0 then
                  [⟨accounts.short_term_account, "$", st'.short_term_gain_loss, none⟩]
                else []))⟩) := by
      unfold trade_lots CommodityLotsManager.get_lots
      rw [hup]
      simp only [hc, Option.getD_some, hopen, Bool.false_eq_true, if_false]
      rw [hfifo]
      dsimp only
      simp only [if_true]
      unfold trade_to_close_postings
      rw [hclrun]
    refine ⟨st', heq, ?_⟩
    rw [hgain]
    have hmap : List.map Prod.fst
        (List.map (fun q : ℚ × CommodityLot => (q.1, some q.2))
          (fifoCollect delta lots delta)) =
        List.map Prod.fst (fifoCollect delta lots delta) := by
      rw [List.map_map]
      rfl
    rw [hmap]
    simp

/-- Witness for C8 at the spec scenario-3 lots (100 @ 10, 50 @ 12): the
average is well defined (unit-typed prices, total quantity 150 ≠ 0), and
the aggregate close of −30 at proceeds 400 with average-cost mode succeeds
with total gain/loss `−30 × (40/3 − 32/3) = −80`. -/
theorem average_cost_mode_witness :
    (∀ l ∈ lotsC8, l.price.price_type = PriceType.unit) ∧
    (lotsC8.map (fun l => l.quantity)).sum ≠ 0 ∧
    ∃ st' : CloseState,
      trade_lots 3 mgrC8x ⟨"acct", "st", "lt"⟩ 20 "AAA"
          (ChangeInQuantity.aggregate (-30)) 400 true =
        some (st'.mgr, Except.ok
          ⟨20, "",
            (⟨"acct" ++ ":cash", "$", 400, none⟩ : Posting) ::
              (st'.postings ++
                (if st'.long_term_gain_loss ≠ 0 then
                  [⟨"lt", "$", st'.long_term_gain_loss, none⟩]
                else []) ++
                (if st'.short_term_gain_loss ≠ 0 then
                  [⟨"st", "$", st'.short_term_gain_loss, none⟩]
                else []))⟩) ∧
      st'.long_term_gain_loss + st'.short_term_gain_loss = -80 := by
  have hunit : ∀ l ∈ lotsC8, l.price.price_type = PriceType.unit := by
    intro l hl
    simp only [lotsC8, List.mem_cons, List.not_mem_nil, or_false] at hl
    rcases hl with h | h <;> subst h <;> rfl
  have hS : (lotsC8.map (fun l => l.quantity)).sum ≠ 0 := by
    norm_num [lotsC8]
  have hkey : ("acct" ++ ":" ++ "AAA" : String) = "acct:AAA" := by decide
  obtain ⟨st', heq, hsum⟩ :=
    (average_cost_mode lotsC8 hunit hS).2.2 3 mgrC8x ⟨"acct", "st", "lt"⟩
      20 "AAA" (-30) 400
      (by simp [mgrC8x, dictFind, lotsKey, hkey])
      (by simp [lotsC8])
      (by intro l hl
          simp only [lotsC8, List.mem_cons, List.not_mem_nil, or_false] at hl
          rcases hl with h | h <;> subst h <;> norm_num)
      (by decide)
      (by decide)
  refine ⟨hunit, hS, st', heq, ?_⟩
  rw [hsum]
  have havg : averageUnitCost lotsC8 = 32 / 3 := by
    norm_num [averageUnitCost, lotsC8]
  have habs : |(400 : ℚ) / (-30)| = 40 / 3 := by
    rw [show (400 : ℚ) / (-30) = -(40 / 3) by norm_num, abs_neg,
      abs_of_nonneg (by norm_num : (0 : ℚ) ≤ 40 / 3)]
  have habs3 : |(-30 : ℚ)| = 30 := by
    rw [abs_neg]
    exact abs_of_nonneg (by norm_num)
  have habs4 : |(100 : ℚ)| = 100 := abs_of_nonneg (by norm_num)
  have hcol : ((fifoCollect (-30) lotsC8 (-30)).map Prod.fst).sum = -30 := by
    norm_num [fifoCollect, lotsC8, habs3, habs4]
  rw [havg, habs, hcol]
  norm_num

end HledgerToolbox
